import Mathlib

/-!
Verification of the SLATE tile-execution layer sources against their design
specification.

Embedded source units:
* `src/src/hip/device_henorm.hip.cc` — batched Hermitian/symmetric tile-norm
  kernels (max-abs, one-norm, Frobenius) and their dispatch entry `henorm`.
* `src/src/internal/internal_syr2k.cc` — the four target realizations of the
  symmetric rank-2k update (HostTask, HostNest, HostBatch, Devices) and the
  dispatching entry `syr2k`.

Scalars are idealized: real instantiations (`float`/`double`) are embedded as
rationals, extended with a `NaN` element (`Option ℚ`, `none` being NaN) where
the device-kernel claims require IEEE NaN behaviour.  `conj` and `real` are
the identity on this real-scalar embedding.  Strides / leading dimensions are
not modelled (tiles are total functions); tile extents are modelled exactly.

Helper device functions (`max_nan`, `add_sumsq`, `combine_sumsq`,
`max_nan_reduce`) and matrix accessors (`uplo()` normalization, the
single-tile BLAS collaborators) live outside the provided sources; they are
modelled from the specification, and each such definition's doc comment says
so.
-/

namespace Slate

/-- Transpose tags (`blas::Op`). -/
inductive Op
  | NoTrans | Trans | ConjTrans
deriving DecidableEq, Repr, Fintype

/-- Triangle tags (`blas::Uplo`, restricted to the two values the sources use). -/
inductive Uplo
  | Lower | Upper
deriving DecidableEq, Repr, Fintype

/-- Execution-target tags (`slate::Target`) selecting a realization. -/
inductive Target
  | HostTask | HostNest | HostBatch | Devices
deriving DecidableEq, Repr, Fintype

/-- Norm kinds (`lapack::Norm`). -/
inductive Norm
  | One | Two | Inf | Fro | Max
deriving DecidableEq, Repr, Fintype

/-! Extended reals for the device norm kernels: `none` is IEEE NaN, `some x`
a finite value idealized as a rational. -/

/-- NaN-extended idealized reals. -/
abbrev RExt := Option ℚ

/-- NaN-propagating addition. -/
def radd : RExt → RExt → RExt
  | some a, some b => some (a + b)
  | _, _ => none

/-- NaN-propagating multiplication. -/
def rmul : RExt → RExt → RExt
  | some a, some b => some (a * b)
  | _, _ => none

/-- NaN-propagating division; a zero divisor is mapped to NaN (the kernels
never divide by zero on the paths proved below). -/
def rdiv : RExt → RExt → RExt
  | some a, some b => if b = 0 then none else some (a / b)
  | _, _ => none

/-- NaN-propagating square. -/
def rsq (x : RExt) : RExt := rmul x x

/-- NaN-propagating absolute value (`abs` of `device_util`
on real scalars). -/
def rabs : RExt → RExt
  | some a => some |a|
  | none => none

/-- Real part; the identity on this real-scalar embedding (`real` of
`device_util`). -/
def rre (x : RExt) : RExt := x

/-- Modelled from the spec: NaN-dominant maximum (`max_nan` of
`device_util.hip.hh`, which is outside `src/`): "NaN treated as dominant
(propagates through the reduction ... any NaN input makes the tile's result
NaN)". -/
def max_nan : RExt → RExt → RExt
  | some a, some b => some (max a b)
  | _, _ => none

/-- Modelled from the spec: scaled sum-of-squares combination
(`combine_sumsq` of `device_util.hip.hh`, outside `src/`): "a (scale, sumsq)
pair where the true sum of squares equals scale²×sumsq; combining two pairs
rescales the one with smaller scale before adding".  A NaN scale makes the
whole pair NaN; a NaN sumsq propagates through the arithmetic. -/
def combine_sumsq : RExt × RExt → RExt × RExt → RExt × RExt
  | (some s1, q1), (some s2, q2) =>
    if s1 < s2 then (some s2, radd (rmul q1 (rsq (rdiv (some s1) (some s2)))) q2)
    else if s2 < s1 then (some s1, radd q1 (rmul q2 (rsq (rdiv (some s2) (some s1)))))
    else (some s1, radd q1 q2)
  | _, _ => (none, none)

/-- Modelled from the spec: adding one absolute value to a scaled
sum-of-squares pair (`add_sumsq` of `device_util.hip.hh`, outside `src/`);
adding `x` is combining with the pair `(x, 1)` whose value is `x²`. -/
def add_sumsq (p : RExt × RExt) (x : RExt) : RExt × RExt :=
  combine_sumsq p (x, some 1)

/-- A tile of NaN-extended scalars, entry `(row, col)`. -/
abbrev TileR := ℕ → ℕ → RExt

/-- The rows a worker-thread chunk `c` scans: rows of the tile congruent to
`c` modulo the thread-block size (`for (i = threadIdx.x; i < n; i += blockDim.x)`). -/
def chunkRows (bdim n c : ℕ) : List ℕ :=
  (List.range n).filter (fun i => i % bdim = c)

/-- Row scan of `henorm_max_kernel`: max absolute value over the declared
strict triangle of row `i` followed by the (real) diagonal entry. -/
def henorm_max_row (uplo : Uplo) (n : ℕ) (t : TileR) (i : ℕ) : RExt :=
  max_nan
    (if uplo = Uplo.Lower then
      (List.range i).foldl (fun m j => max_nan m (rabs (t i j))) (some 0)
    else
      ((List.range' (i + 1) (n - (i + 1))).reverse).foldl
        (fun m j => max_nan m (rabs (t i j))) (some 0))
    (rabs (rre (t i i)))

/-- Shared-memory cell of chunk `c` after the row loop of
`henorm_max_kernel` (init 0, then `row_max[chunk] = max_nan(max, row_max[chunk])`
per row of the chunk). -/
def henorm_max_chunk (bdim : ℕ) (uplo : Uplo) (n : ℕ) (t : TileR) (c : ℕ) : RExt :=
  (chunkRows bdim n c).foldl (fun m i => max_nan (henorm_max_row uplo n t i) m) (some 0)

/-- Per-tile result of `henorm_max_kernel`.  The final tree reduction
`max_nan_reduce` lives outside `src/` and is modelled from the spec
("partial maxima are combined via an in-shared-memory tree-style reduction
to one value per tile") as the NaN-dominant maximum of all `blockDim.x`
shared-memory cells. -/
def henorm_max_kernel (bdim : ℕ) (uplo : Uplo) (n : ℕ) (t : TileR) : RExt :=
  (List.range bdim).foldl (fun m c => max_nan m (henorm_max_chunk bdim uplo n t c)) (some 0)

/-- Per-column result of `henorm_one_kernel`: the sum, in source loop order,
of the declared strict part of row `k`, the (real) diagonal entry, and the
declared strict part of column `k`. -/
def henorm_one_col (uplo : Uplo) (n : ℕ) (t : TileR) (k : ℕ) : RExt :=
  if uplo = Uplo.Lower then
    (List.range' (k + 1) (n - (k + 1))).foldl (fun s i => radd s (rabs (t i k)))
      (radd ((List.range k).foldl (fun s j => radd s (rabs (t k j))) (some 0))
        (rabs (rre (t k k))))
  else
    (List.range k).foldl (fun s i => radd s (rabs (t i k)))
      (radd (((List.range' (k + 1) (n - (k + 1))).reverse).foldl
          (fun s j => radd s (rabs (t k j))) (some 0))
        (rabs (rre (t k k))))

/-- Row scan of `henorm_fro_kernel`: scaled sum-of-squares of the declared
strict part of row `i`, whose sumsq component is then doubled for the
mirrored triangle, followed by the (real) diagonal entry added once. -/
def fro_double_diag (t : TileR) (i : ℕ) (st : RExt × RExt) : RExt × RExt :=
  add_sumsq (st.1, rmul st.2 (some 2)) (rabs (rre (t i i)))

/-- Row scan of `henorm_fro_kernel`: scaled sum-of-squares of the declared
strict part of row `i`, whose sumsq component is then doubled for the
mirrored triangle, followed by the (real) diagonal entry added once. -/
def henorm_fro_row (uplo : Uplo) (n : ℕ) (t : TileR) (i : ℕ) : RExt × RExt :=
  fro_double_diag t i
    (if uplo = Uplo.Lower then
      (List.range i).foldl (fun p j => add_sumsq p (rabs (t i j))) (some 0, some 1)
    else
      ((List.range' (i + 1) (n - (i + 1))).reverse).foldl
        (fun p j => add_sumsq p (rabs (t i j))) (some 0, some 1))

/-- Shared-memory pair of chunk `c` after the row loop of `henorm_fro_kernel`
(init `(0, 1)`, then `combine_sumsq` of each row pair of the chunk). -/
def henorm_fro_chunk (bdim : ℕ) (uplo : Uplo) (n : ℕ) (t : TileR) (c : ℕ) : RExt × RExt :=
  (chunkRows bdim n c).foldl (fun p i => combine_sumsq p (henorm_fro_row uplo n t i))
    (some 0, some 1)

/-- Per-tile result of `henorm_fro_kernel`: thread 0 sequentially combines
the chunk pairs `1 ≤ chunk < min blockDim.x n` into chunk 0's pair. -/
def henorm_fro_kernel (bdim : ℕ) (uplo : Uplo) (n : ℕ) (t : TileR) : RExt × RExt :=
  (List.range' 1 (min bdim n - 1)).foldl
    (fun p c => combine_sumsq p (henorm_fro_chunk bdim uplo n t c))
    (henorm_fro_chunk bdim uplo n t 0)

/-- Pointwise update of the output values array. -/
def upd1 (v : ℕ → RExt) (p : ℕ) (x : RExt) : ℕ → RExt :=
  fun q => if q = p then x else v q

/-- `blas::device_memset(values, 0, m, queue)`: the first `m` output cells
become zero. -/
def memset0 (v : ℕ → RExt) (m : ℕ) : ℕ → RExt :=
  fun q => if q < m then some 0 else v q

/-- Device kernels launchable by `henorm`. -/
inductive Kern
  | maxK | oneK | froK
deriving DecidableEq, Repr

/-- One kernel launch: which kernel, the grid size (one work-group per
tile), and the thread-block size. -/
structure Launch where
  kern : Kern
  grid : ℕ
  blockDim : ℕ
deriving DecidableEq, Repr

/-- Output array after `henorm_max_kernel` ran on the whole batch: cell `k`
receives tile `k`'s max. -/
def henorm_max_out (bdim : ℕ) (uplo : Uplo) (n : ℕ) (tiles : ℕ → TileR)
    (values : ℕ → RExt) (batch_count : ℕ) : ℕ → RExt :=
  (List.range batch_count).foldl
    (fun v b => upd1 v b (henorm_max_kernel bdim uplo n (tiles b))) values

/-- Output array after `henorm_one_kernel` ran on the whole batch: cell
`b*ldv + k` receives column `k`'s sum of tile `b`. -/
def henorm_one_out (uplo : Uplo) (n : ℕ) (tiles : ℕ → TileR)
    (values : ℕ → RExt) (ldv batch_count : ℕ) : ℕ → RExt :=
  (List.range batch_count).foldl
    (fun v b =>
      (List.range n).foldl
        (fun v k => upd1 v (b * ldv + k) (henorm_one_col uplo n (tiles b) k)) v)
    values

/-- Output array after `henorm_fro_kernel` ran on the whole batch: cells
`2b` and `2b+1` receive tile `b`'s (scale, sumsq) pair. -/
def henorm_fro_out (bdim : ℕ) (uplo : Uplo) (n : ℕ) (tiles : ℕ → TileR)
    (values : ℕ → RExt) (batch_count : ℕ) : ℕ → RExt :=
  (List.range batch_count).foldl
    (fun v b =>
      upd1 (upd1 v (b * 2) (henorm_fro_kernel bdim uplo n (tiles b)).1)
        (b * 2 + 1) (henorm_fro_kernel bdim uplo n (tiles b)).2)
    values

/-- The batch entry point `henorm` of `device_henorm.hip.cc`: returns the
output array after the call and the list of kernel launches issued.
Faithful to the source dispatch: quick return on `batch_count == 0`;
per-norm branches with an `n == 0` memset short-cut (of `batch_count`,
`batch_count * n`, resp. `batch_count * 2` cells) and otherwise a single
launch with `batch_count` work-groups of `nb = 512` threads; `Norm::Inf`
shares the `Norm::One` branch; any other norm kind falls through. -/
def henorm (norm : Norm) (uplo : Uplo) (n : ℕ) (tiles : ℕ → TileR)
    (values : ℕ → RExt) (ldv batch_count : ℕ) : (ℕ → RExt) × List Launch :=
  if batch_count = 0 then (values, [])
  else if norm = Norm.Max then
    if n = 0 then (memset0 values batch_count, [])
    else (henorm_max_out 512 uplo n tiles values batch_count,
      [⟨Kern.maxK, batch_count, 512⟩])
  else if norm = Norm.One ∨ norm = Norm.Inf then
    if n = 0 then (memset0 values (batch_count * n), [])
    else (henorm_one_out uplo n tiles values ldv batch_count,
      [⟨Kern.oneK, batch_count, 512⟩])
  else if norm = Norm.Fro then
    if n = 0 then (memset0 values (batch_count * 2), [])
    else (henorm_fro_out 512 uplo n tiles values batch_count,
      [⟨Kern.froK, batch_count, 512⟩])
  else (values, [])

/-- Number of output cells the `n = 0` short-cut of `henorm` zeroes for each
norm kind handled by the claims: one per tile for max-abs, the per-column
region for one-norm, two per tile for Frobenius. -/
def zeroedCells (norm : Norm) (n batch_count : ℕ) : ℕ :=
  match norm with
  | Norm.Max => batch_count
  | Norm.Fro => batch_count * 2
  | _ => batch_count * n

/-- The kernel the non-degenerate branch of `henorm` launches for each norm
kind handled by the claims. -/
def kernOf (norm : Norm) : Kern :=
  match norm with
  | Norm.Max => Kern.maxK
  | Norm.Fro => Kern.froK
  | _ => Kern.oneK

/-- Membership of position `(r, c)` in the declared (stored) triangle of a
tile, diagonal included. -/
def stored (uplo : Uplo) (r c : ℕ) : Prop :=
  match uplo with
  | Uplo.Lower => c ≤ r
  | Uplo.Upper => r ≤ c

instance (uplo : Uplo) (r c : ℕ) : Decidable (stored uplo r c) := by
  cases uplo <;> simp [stored] <;> infer_instance

/-! Embedding of `internal_syr2k.cc`.  Scalars are idealized rationals
(real instantiations); on real scalars `Trans` and `ConjTrans` act alike
and `conj` is the identity. -/

/-- A tile of idealized real scalars, entry `(row, col)` of the physical
(stored) data. -/
abbrev TileQ := ℕ → ℕ → ℚ

/-- Entry `(r, c)` of `op(T)` for a physically stored tile `T`; on real
scalars `ConjTrans` transposes like `Trans`. -/
def applyOp : Op → TileQ → ℕ → ℕ → ℚ
  | Op.NoTrans, t, r, c => t r c
  | _, t, r, c => t c r

/-- Inputs of the internal symmetric rank-2k update
`C ← α·op(A)·op(B)ᵗ + α·op(B)·op(A)ᵗ + β·C`: `C` is a symmetric `mt × mt`
tile grid with square diagonal tiles (`tileMb = tileNb = nb`), storing the
triangle `uploC`, and `A`, `B` are single-block-column matrices whose row
block sizes match `C`'s and whose column block size is `kb`.  `Aph i`,
`Bph i`, `Cph i j` are the physical tile data; logical indices are related
to physical ones through the transpose tags. -/
structure SyInp where
  mt : ℕ
  nb : ℕ → ℕ
  kb : ℕ
  isLocal : ℕ → ℕ → Bool
  tileDevice : ℕ → ℕ → ℕ
  num_devices : ℕ
  opA : Op
  opB : Op
  opC : Op
  uploC : Uplo
  is_real : Bool
  Aph : ℕ → TileQ
  Bph : ℕ → TileQ
  Cph : ℕ → ℕ → TileQ
  alpha : ℚ
  beta : ℚ

/-- Modelled from the spec: `BaseMatrix::uplo()` (declared outside `src/`),
"C's stored triangle ... after normalizing for C's transpose tag": the
stored triangle flipped when the operator is a transpose. -/
def uplo_logical (uplo : Uplo) (op : Op) : Uplo :=
  if op = Op.NoTrans then uplo
  else match uplo with
    | Uplo.Lower => Uplo.Upper
    | Uplo.Upper => Uplo.Lower

/-- The dispatch guard of `internal::syr2k` (lines 36–42): proceed only if
`C.uplo() == Lower`, `C.is_real || (C.op() != ConjTrans && A.op() != ConjTrans)`,
and `A.op() == B.op()`. -/
def syr2kGuard (is_real : Bool) (opA opB opC : Op) (uploStoredC : Uplo) : Bool :=
  (uplo_logical uploStoredC opC = Uplo.Lower)
    && (is_real || (opC ≠ Op.ConjTrans && opA ≠ Op.ConjTrans))
    && (opA = opB)

/-- The claimed raise condition of the spec, written from its words: wrong
stored triangle after normalization, differing `A`/`B` transpose tags, or a
conjugate-transpose operator on a complex element type. -/
def specRaises (is_real : Bool) (opA opB opC : Op) (uploStoredC : Uplo) : Prop :=
  uplo_logical uploStoredC opC ≠ Uplo.Lower
    ∨ opA ≠ opB
    ∨ (¬is_real ∧ (opA = Op.ConjTrans ∨ opB = Op.ConjTrans ∨ opC = Op.ConjTrans))

instance (is_real : Bool) (opA opB opC : Op) (u : Uplo) :
    Decidable (specRaises is_real opA opB opC u) := by
  unfold specRaises; infer_instance

/-- The `internal::syr2k` dispatch entry: checks the guard synchronously and
otherwise proceeds to the realization selected by the target tag. -/
def syr2kDispatch (target : Target) (is_real : Bool) (opA opB opC : Op)
    (uploStoredC : Uplo) : Except Unit Target :=
  if syr2kGuard is_real opA opB opC uploStoredC then Except.ok target
  else Except.error ()

/-- The dispatch guard on a full input. -/
def syr2kPre (inp : SyInp) : Bool :=
  syr2kGuard inp.is_real inp.opA inp.opB inp.opC inp.uploC

/-- Logical tile `i` of `op(A)` (single block column). -/
def Al (inp : SyInp) (i : ℕ) : ℕ → ℕ → ℚ := applyOp inp.opA (inp.Aph i)

/-- Logical tile `i` of `op(B)` (single block column). -/
def Bl (inp : SyInp) (i : ℕ) : ℕ → ℕ → ℚ := applyOp inp.opB (inp.Bph i)

/-- The physical storage of `C`, indexed by stored tile position. -/
abbrev CState := ℕ → ℕ → TileQ

/-- Stored position of logical tile `(i, j)` of `C` (`i ≥ j`): the same
position when the lower triangle is stored, the transposed position
otherwise. -/
def physPos (inp : SyInp) (i j : ℕ) : ℕ × ℕ :=
  if inp.uploC = Uplo.Lower then (i, j) else (j, i)

/-- Tile transpose. -/
def trT (t : TileQ) : TileQ := fun r c => t c r

/-- Logical tile `(i, j)` of `C` as seen through the transpose tag. -/
def Cl (inp : SyInp) (s : CState) (i j : ℕ) : TileQ :=
  if inp.uploC = Uplo.Lower then s i j else trT (s j i)

/-- Transport of a logical tile update to the physical storage of that
tile. -/
def onPhys (inp : SyInp) (f : TileQ → TileQ) : TileQ → TileQ :=
  if inp.uploC = Uplo.Lower then f else fun t => trT (f (trT t))

/-- Overwrite one stored tile of `C`. -/
def updAt (s : CState) (p : ℕ × ℕ) (t : TileQ) : CState :=
  fun a b => if a = p.1 ∧ b = p.2 then t else s a b

/-- One tile-level write of a realization: a stored position together with
the update applied to the tile held there. -/
abbrev Item := (ℕ × ℕ) × (TileQ → TileQ)

/-- Execute a realization's tile writes in program order.  Every item reads
only the tile it overwrites (plus the fixed `A`, `B` inputs), matching the
source where each unit updates exactly one `C` tile. -/
def applyItems (l : List Item) (s : CState) : CState :=
  l.foldl (fun s it => updAt s it.1 (it.2 (s it.1.1 it.1.2))) s

/-- Inner product of row `r` of `a` with row `c` of `b` over `k` terms
(an `X·Yᵗ` entry on logical tiles). -/
def dotRR (a b : ℕ → ℕ → ℚ) (k r c : ℕ) : ℚ :=
  ∑ t in Finset.range k, a r t * b c t

/-- Modelled from the spec: the single-tile matrix-product collaborator
(`Tile_blas.hh` gemm, outside `src/`, "assumed correct and invoked as a
black box"): on logical values, `C ← α·X·Yᵗ + β·C` on the tile's
`m × n` extent.  The first call of an off-diagonal unit,
`gemm(alpha, A(i,0), transpose(B(j,0)), beta, C(i,j))`. -/
def hostGemm1 (inp : SyInp) (i j : ℕ) (c : TileQ) : TileQ :=
  fun r cc =>
    if r < inp.nb i ∧ cc < inp.nb j then
      inp.alpha * dotRR (Al inp i) (Bl inp j) inp.kb r cc + inp.beta * c r cc
    else c r cc

/-- Modelled from the spec: the second call of an off-diagonal unit,
`gemm(alpha, B(i,0), transpose(A(j,0)), 1, C(i,j))`. -/
def hostGemm2 (inp : SyInp) (i j : ℕ) (c : TileQ) : TileQ :=
  fun r cc =>
    if r < inp.nb i ∧ cc < inp.nb j then
      inp.alpha * dotRR (Bl inp i) (Al inp j) inp.kb r cc + c r cc
    else c r cc

/-- The combined update an off-diagonal host unit applies to its logical
tile. -/
def hostOffUpd (inp : SyInp) (i j : ℕ) : TileQ → TileQ :=
  fun c => hostGemm2 inp i j (hostGemm1 inp i j c)

/-- Modelled from the spec: the single-tile symmetric rank-2k collaborator
(`Tile_blas.hh` syr2k, outside `src/`): on logical values,
`C ← α·(X·Yᵗ + Y·Xᵗ) + β·C` restricted to the tile's stored (logically
lower) triangle, `syr2k(alpha, A(j,0), B(j,0), beta, C(j,j))`. -/
def hostDiagUpd (inp : SyInp) (j : ℕ) : TileQ → TileQ :=
  fun c r cc =>
    if r < inp.nb j ∧ cc < inp.nb j ∧ cc ≤ r then
      inp.alpha * (dotRR (Al inp j) (Bl inp j) inp.kb r cc
          + dotRR (Bl inp j) (Al inp j) inp.kb r cc) + inp.beta * c r cc
    else c r cc

/-- Entry `(r, c)` of `op1(a) · op2(b)` with `k` inner terms, operands given
by physical data and explicit transpose flags (the batched back-end
collaborators take physical pointers). -/
def gemmEntry (o1 o2 : Op) (k : ℕ) (a b : TileQ) (r c : ℕ) : ℚ :=
  ∑ t in Finset.range k, applyOp o1 a r t * applyOp o2 b t c

/-- Modelled from the spec: one entry of a batched matrix-product call
(`cblas_gemm_batch` / `blas::batch::gemm`, outside `src/`):
`C ← α·op1(a)·op2(b) + β·C` on an `m × n` region of the physical tile. -/
def batchGemmUpd (o1 o2 : Op) (m n k : ℕ) (a b : TileQ) (al be : ℚ) :
    TileQ → TileQ :=
  fun c r cc =>
    if r < m ∧ cc < n then al * gemmEntry o1 o2 k a b r cc + be * c r cc
    else c r cc

/-- Modelled from the spec: one entry of a batched symmetric rank-2k call
(`blas::syr2k` / `blas::batch::syr2k`, outside `src/`):
`C ← α·(op(a)·op(b)ᵗ + op(b)·op(a)ᵗ) + β·C` on the `uplo` triangle of an
`n × n` region of the physical tile. -/
def batchSyr2kUpd (uplo : Uplo) (o : Op) (n k : ℕ) (a b : TileQ) (al be : ℚ) :
    TileQ → TileQ :=
  fun c r cc =>
    if r < n ∧ cc < n ∧ stored uplo r cc then
      al * (∑ t in Finset.range k,
        (applyOp o a r t * applyOp o b cc t + applyOp o b r t * applyOp o a cc t))
        + be * c r cc
    else c r cc

/-- The `opA` normalization of the batch realizations (HostBatch lines
276–287, Devices lines 465–477): invert the operators against `C.op()`
where possible, `none` when the source throws. -/
def opAeffE (inp : SyInp) : Option Op :=
  if inp.opC = Op.NoTrans then some inp.opA
  else if inp.opA = Op.NoTrans then some inp.opC
  else if inp.opA = inp.opC ∨ inp.is_real = true then some Op.NoTrans
  else none

/-- The normalized `opA` (defaulted; the batch realizations throw exactly
when `opAeffE` is `none`). -/
def opAeffD (inp : SyInp) : Op := (opAeffE inp).getD Op.NoTrans

/-- `opB = (opA == NoTrans ? Trans : NoTrans)` after normalization. -/
def opBeff (inp : SyInp) : Op :=
  if opAeffD inp = Op.NoTrans then Op.Trans else Op.NoTrans

/-- First-orientation batched gemm update of one off-diagonal tile with
pre-swap extents `m × n`: operands `(A(i), B(j))`, or `(B(j), A(i))` with
operators, extents and target transposed when `C.op() != NoTrans` (the
`swap` block of the source). -/
def gemmUpd1 (inp : SyInp) (m n i j : ℕ) : TileQ → TileQ :=
  if inp.opC = Op.NoTrans then
    batchGemmUpd (opAeffD inp) (opBeff inp) m n inp.kb (inp.Aph i) (inp.Bph j)
      inp.alpha inp.beta
  else
    batchGemmUpd (opBeff inp) (opAeffD inp) n m inp.kb (inp.Bph j) (inp.Aph i)
      inp.alpha inp.beta

/-- Second-orientation batched gemm update (`ai => bi, bj => aj`, `β = 1`). -/
def gemmUpd2 (inp : SyInp) (m n i j : ℕ) : TileQ → TileQ :=
  if inp.opC = Op.NoTrans then
    batchGemmUpd (opAeffD inp) (opBeff inp) m n inp.kb (inp.Bph i) (inp.Aph j)
      inp.alpha 1
  else
    batchGemmUpd (opBeff inp) (opAeffD inp) n m inp.kb (inp.Aph j) (inp.Bph i)
      inp.alpha 1

/-- The operator vector `opA_` the Devices realization hands to the batched
syr2k calls: the post-swap `opA`. -/
def opSyrDev (inp : SyInp) : Op :=
  if inp.opC = Op.NoTrans then opAeffD inp else opBeff inp

/-- Batched syr2k update of one diagonal tile of extent `n` in the Devices
realization. -/
def syr2kDevUpd (inp : SyInp) (n j : ℕ) : TileQ → TileQ :=
  batchSyr2kUpd inp.uploC (opSyrDev inp) n inp.kb (inp.Aph j) (inp.Bph j)
    inp.alpha inp.beta

/-- The single-tile Devices short-cut (lines 425–457): one `blas::syr2k`
with `C.uploPhysical()` and `A.op()`, extents `C(0,0).nb() × A(0,0).nb()`. -/
def syr2kSingleUpd (inp : SyInp) : TileQ → TileQ :=
  batchSyr2kUpd inp.uploC inp.opA (inp.nb 0) inp.kb (inp.Aph 0) (inp.Bph 0)
    inp.alpha inp.beta

/-! Tile index lists in source loop order. -/

/-- `for j < nt: for i = j .. mt-1` — the lower-triangle tiles. -/
def lowerIdx (mt : ℕ) : List (ℕ × ℕ) :=
  (List.range mt).flatMap (fun j => (List.range' j (mt - j)).map (fun i => (i, j)))

/-- `for j < nt: for i = j+1 .. mt-1` — the strictly-lower tiles. -/
def strictLowerIdx (mt : ℕ) : List (ℕ × ℕ) :=
  (List.range mt).flatMap
    (fun j => (List.range' (j + 1) (mt - (j + 1))).map (fun i => (i, j)))

/-- The HostNest flattened 2-D loop: full `(j, i)` grid filtered to
`i ≥ j+1`. -/
def nestOffIdx (mt : ℕ) : List (ℕ × ℕ) :=
  (List.range mt).flatMap
    (fun j => ((List.range mt).filter (fun i => j + 1 ≤ i)).map (fun i => (i, j)))

/-- Devices interior gemm group: `for j < nt-1: for i = j+1 .. mt-2`. -/
def interiorIdx (mt : ℕ) : List (ℕ × ℕ) :=
  (List.range (mt - 1)).flatMap
    (fun j => (List.range' (j + 1) ((mt - 1) - (j + 1))).map (fun i => (i, j)))

/-- Devices bottom-row gemm group: `i = mt-1, for j < nt-1`. -/
def bottomIdx (mt : ℕ) : List (ℕ × ℕ) :=
  (List.range (mt - 1)).map (fun j => (mt - 1, j))

/-- Locality of tile `(i, j)`. -/
def isLoc (inp : SyInp) (p : ℕ × ℕ) : Bool := inp.isLocal p.1 p.2

/-- Locality of tile `(i, j)` on device `d`. -/
def isLocDev (inp : SyInp) (d : ℕ) (p : ℕ × ℕ) : Bool :=
  inp.isLocal p.1 p.2 && (inp.tileDevice p.1 p.2 = d)

/-- One HostTask unit's write: the diagonal syr2k, or the two accumulated
gemms, on the logical tile, transported to storage. -/
def hostLowerItem (inp : SyInp) (p : ℕ × ℕ) : Item :=
  (physPos inp p.1 p.2,
    onPhys inp (if p.1 = p.2 then hostDiagUpd inp p.1 else hostOffUpd inp p.1 p.2))

/-- The HostTask realization's writes in program order. -/
def hostTaskItems (inp : SyInp) : List Item :=
  ((lowerIdx inp.mt).filter (isLoc inp)).map (hostLowerItem inp)

/-- Final `C` storage of the HostTask realization. -/
def hostTaskState (inp : SyInp) : CState :=
  applyItems (hostTaskItems inp) inp.Cph

/-- One diagonal-task write (shared by HostNest and HostBatch). -/
def hostDiagItem (inp : SyInp) (j : ℕ) : Item :=
  (physPos inp j j, onPhys inp (hostDiagUpd inp j))

/-- The HostNest realization's writes: the diagonal task loop, then the
flattened parallel loop over strictly-lower tiles. -/
def hostNestItems (inp : SyInp) : List Item :=
  ((List.range inp.mt).filter (fun j => inp.isLocal j j)).map (hostDiagItem inp)
    ++ ((nestOffIdx inp.mt).filter (isLoc inp)).map
      (fun p => (physPos inp p.1 p.2, onPhys inp (hostOffUpd inp p.1 p.2)))

/-- Final `C` storage of the HostNest realization. -/
def hostNestState (inp : SyInp) : CState :=
  applyItems (hostNestItems inp) inp.Cph

/-- The HostBatch realization's writes: diagonal tasks, then the first
batched gemm over all local strictly-lower tiles (per-entry extents
`C(i,j).mb() × C(i,j).nb()`), then the second batched gemm with `β = 1`. -/
def hostBatchItems (inp : SyInp) : List Item :=
  ((List.range inp.mt).filter (fun j => inp.isLocal j j)).map (hostDiagItem inp)
    ++ ((strictLowerIdx inp.mt).filter (isLoc inp)).map
      (fun p => (physPos inp p.1 p.2, gemmUpd1 inp (inp.nb p.1) (inp.nb p.2) p.1 p.2))
    ++ ((strictLowerIdx inp.mt).filter (isLoc inp)).map
      (fun p => (physPos inp p.1 p.2, gemmUpd2 inp (inp.nb p.1) (inp.nb p.2) p.1 p.2))

/-- Final `C` storage of the HostBatch realization (batched back-end
available). -/
def hostBatchState (inp : SyInp) : CState :=
  applyItems (hostBatchItems inp) inp.Cph

/-- The Devices realization's writes for one device task: interior and
bottom-row gemm groups for each orientation (group-shared extents
`tileMb(0)/tileMb(mt-1) × tileNb(0) × tileNb(0)`), then interior-diagonal
and corner syr2k groups. -/
def devItemsAt (inp : SyInp) (d : ℕ) : List Item :=
  ((interiorIdx inp.mt).filter (isLocDev inp d)).map
      (fun p => (physPos inp p.1 p.2, gemmUpd1 inp (inp.nb 0) (inp.nb 0) p.1 p.2))
    ++ ((bottomIdx inp.mt).filter (isLocDev inp d)).map
      (fun p => (physPos inp p.1 p.2, gemmUpd1 inp (inp.nb (inp.mt - 1)) (inp.nb 0) p.1 p.2))
    ++ ((interiorIdx inp.mt).filter (isLocDev inp d)).map
      (fun p => (physPos inp p.1 p.2, gemmUpd2 inp (inp.nb 0) (inp.nb 0) p.1 p.2))
    ++ ((bottomIdx inp.mt).filter (isLocDev inp d)).map
      (fun p => (physPos inp p.1 p.2, gemmUpd2 inp (inp.nb (inp.mt - 1)) (inp.nb 0) p.1 p.2))
    ++ ((List.range (inp.mt - 1)).filter (fun j => isLocDev inp d (j, j))).map
      (fun j => (physPos inp j j, syr2kDevUpd inp (inp.nb 0) j))
    ++ (if isLocDev inp d (inp.mt - 1, inp.mt - 1) then
        [(physPos inp (inp.mt - 1) (inp.mt - 1), syr2kDevUpd inp (inp.nb (inp.mt - 1)) (inp.mt - 1))]
      else [])

/-- The Devices realization's writes: the single-tile short-cut when the
grid is `1 × 1`, otherwise one task per device. -/
def devItems (inp : SyInp) : List Item :=
  if inp.mt = 1 then
    if inp.isLocal 0 0 then [(physPos inp 0 0, syr2kSingleUpd inp)] else []
  else (List.range inp.num_devices).flatMap (devItemsAt inp)

/-- Final `C` storage of the Devices realization (no realization throw). -/
def devicesState (inp : SyInp) : CState :=
  applyItems (devItems inp) inp.Cph

/-- The direct reference computation on logical values:
`α·op(A)·op(B)ᵗ + α·op(B)·op(A)ᵗ + β·C`, to be compared on the lower
triangle. -/
def refC (inp : SyInp) (i j r c : ℕ) : ℚ :=
  inp.alpha * dotRR (Al inp i) (Bl inp j) inp.kb r c
    + inp.alpha * dotRR (Bl inp i) (Al inp j) inp.kb r c
    + inp.beta * Cl inp inp.Cph i j r c

/-- Uniform tile extents away from the last block row/column (the regular
distribution the Devices batch groups assume). -/
def uniformNb (inp : SyInp) : Prop :=
  ∀ t, t < inp.mt - 1 → inp.nb t = inp.nb 0

instance (inp : SyInp) : Decidable (uniformNb inp) := by
  unfold uniformNb; infer_instance

/-! Concurrent units, error capture and life-count bookkeeping of the four
realizations. -/

/-- An input tile of the update: block `(i, 0)` of `A` (`true`) or of `B`
(`false`). -/
abbrev ABTile := Bool × ℕ

/-- One concurrent unit of work of a realization: whether its body is
wrapped in a `try/catch` recording into the shared error flag, the input
tiles it reads, and its `tileTick` life-decrement events in program
order. -/
structure UnitD where
  hasCatch : Bool
  reads : List ABTile
  ticks : List ABTile
deriving DecidableEq, Repr

/-- The unit a host realization runs for lower tile `(i, j)`: the diagonal
task reads and ticks `A(j,0), B(j,0)`; an off-diagonal unit reads and ticks
`A(i,0), A(j,0), B(i,0), B(j,0)`, in source order. -/
def hostLowerUnit (p : ℕ × ℕ) : UnitD :=
  if p.1 = p.2 then
    ⟨true, [(true, p.2), (false, p.2)], [(true, p.2), (false, p.2)]⟩
  else
    ⟨true, [(true, p.1), (true, p.2), (false, p.1), (false, p.2)],
      [(true, p.1), (true, p.2), (false, p.1), (false, p.2)]⟩

/-- Units spawned by the HostTask realization. -/
def hostTaskUnits (inp : SyInp) : List UnitD :=
  ((lowerIdx inp.mt).filter (isLoc inp)).map hostLowerUnit

/-- Units run by the HostNest realization: diagonal tasks, then the
flattened parallel loop bodies. -/
def hostNestUnits (inp : SyInp) : List UnitD :=
  ((List.range inp.mt).filter (fun j => inp.isLocal j j)).map
      (fun j => hostLowerUnit (j, j))
    ++ ((nestOffIdx inp.mt).filter (isLoc inp)).map hostLowerUnit

/-- Units spawned by the HostBatch realization (the batched off-diagonal
work runs on the calling thread, not in a unit). -/
def hostBatchUnits (inp : SyInp) : List UnitD :=
  ((List.range inp.mt).filter (fun j => inp.isLocal j j)).map
    (fun j => hostLowerUnit (j, j))

/-- The four `tileTick` events the Devices tick loop issues for one local
lower tile `(i, j)`: `A(i,0), A(j,0), B(i,0), B(j,0)`. -/
def devTickQuad (p : ℕ × ℕ) : List ABTile :=
  [(true, p.1), (true, p.2), (false, p.1), (false, p.2)]

/-- The lower tiles one Devices unit handles: the single local tile in the
`1 × 1` short-cut, otherwise the device's local lower tiles. -/
def devHandled (inp : SyInp) (d : ℕ) : List (ℕ × ℕ) :=
  if inp.mt = 1 then (if inp.isLocal 0 0 then [(0, 0)] else [])
  else (lowerIdx inp.mt).filter (isLocDev inp d)

/-- The Devices unit for device `d`: the `1 × 1` short-cut task has no
`try/catch` (source lines 425–457); the general per-device task does.  It
reads each required input tile once (set-based acquisition) and ticks four
times per handled tile. -/
def devUnitAt (inp : SyInp) (d : ℕ) : UnitD :=
  ⟨decide (inp.mt ≠ 1),
    ((devHandled inp d).flatMap devTickQuad).dedup,
    (devHandled inp d).flatMap devTickQuad⟩

/-- Units spawned by the Devices realization. -/
def devicesUnits (inp : SyInp) : List UnitD :=
  if inp.mt = 1 then
    if inp.isLocal 0 0 then [devUnitAt inp (inp.tileDevice 0 0)] else []
  else (List.range inp.num_devices).map (devUnitAt inp)

/-- Every unit's body is wrapped in a `try/catch` recording into the shared
error flag. -/
def allUnitsCatch (l : List UnitD) : Bool := l.all (fun u => u.hasCatch)

/-! The HostBatch realization's control flow (for the back-end availability
claim). -/

/-- Events of one HostBatch call, in program order. -/
inductive HBEv
  | spawnDiag (j : ℕ)
  | loadTiles (i j : ℕ)
  | opNormRaise
  | notImplRaise
  | gemmBatchCall (pass cnt : ℕ)
deriving DecidableEq, Repr

/-- `batch_count`: the number of locally-owned strictly-lower tiles of
`C`. -/
def hostBatchCount (inp : SyInp) : ℕ :=
  ((strictLowerIdx inp.mt).filter (isLoc inp)).length

/-- The HostBatch realization's event trace, parameterized by whether the
batched host back-end (Intel MKL) is available in the build: diagonal tasks
are spawned, off-diagonal tiles are loaded and counted, and only if
`batch_count > 0` does the batch block run — normalizing `opA` (which can
raise), then either issuing the two `cblas_gemm_batch` calls or raising
`slate_not_implemented`. -/
def hostBatchTrace (mkl : Bool) (inp : SyInp) : List HBEv :=
  let diag := ((List.range inp.mt).filter (fun j => inp.isLocal j j)).map HBEv.spawnDiag
  let lds := ((strictLowerIdx inp.mt).filter (isLoc inp)).map
    (fun p => HBEv.loadTiles p.1 p.2)
  if hostBatchCount inp = 0 then diag ++ lds
  else
    match opAeffE inp with
    | none => diag ++ lds ++ [HBEv.opNormRaise]
    | some _ =>
      if mkl then
        diag ++ lds
          ++ [HBEv.gemmBatchCall 1 (hostBatchCount inp),
            HBEv.gemmBatchCall 2 (hostBatchCount inp)]
      else diag ++ lds ++ [HBEv.notImplRaise]

/-- Whether the HostBatch call raises out of its main body. -/
def hostBatchThrows (mkl : Bool) (inp : SyInp) : Bool :=
  hostBatchCount inp ≠ 0 && (opAeffE inp = none || !mkl)

/-! The Devices realization's batched calls (for the batch-assembly
claim). -/

/-- Kinds of batched calls one Devices task can issue, in source order. -/
inductive BK
  | gemm00 (pass : ℕ)
  | gemm10 (pass : ℕ)
  | syrDiag
  | syrCorner
deriving DecidableEq, Repr

/-- Interior gemm batch group of device `d` (uniform interior tiles). -/
def devGemmG00 (inp : SyInp) (d : ℕ) : List (ℕ × ℕ) :=
  (interiorIdx inp.mt).filter (isLocDev inp d)

/-- Bottom-row gemm batch group of device `d` (the final block row). -/
def devGemmG10 (inp : SyInp) (d : ℕ) : List (ℕ × ℕ) :=
  (bottomIdx inp.mt).filter (isLocDev inp d)

/-- Interior-diagonal syr2k batch group of device `d`. -/
def devSyrG0 (inp : SyInp) (d : ℕ) : List (ℕ × ℕ) :=
  ((List.range (inp.mt - 1)).filter (fun j => isLocDev inp d (j, j))).map
    (fun j => (j, j))

/-- Bottom-right-corner syr2k batch group of device `d`. -/
def devSyrG1 (inp : SyInp) (d : ℕ) : List (ℕ × ℕ) :=
  if isLocDev inp d (inp.mt - 1, inp.mt - 1) then [(inp.mt - 1, inp.mt - 1)]
  else []

/-- The batched calls device `d`'s task issues, each guarded by
`if (c_array.size() > 0)` in the source: a group that is empty is skipped
entirely. -/
def devCalls (inp : SyInp) (d : ℕ) : List (BK × ℕ) :=
  (if (devGemmG00 inp d).length ≠ 0 then [(BK.gemm00 1, (devGemmG00 inp d).length)] else [])
    ++ (if (devGemmG10 inp d).length ≠ 0 then [(BK.gemm10 1, (devGemmG10 inp d).length)] else [])
    ++ (if (devGemmG00 inp d).length ≠ 0 then [(BK.gemm00 2, (devGemmG00 inp d).length)] else [])
    ++ (if (devGemmG10 inp d).length ≠ 0 then [(BK.gemm10 2, (devGemmG10 inp d).length)] else [])
    ++ (if (devSyrG0 inp d).length ≠ 0 then [(BK.syrDiag, (devSyrG0 inp d).length)] else [])
    ++ (if (devSyrG1 inp d).length ≠ 0 then [(BK.syrCorner, (devSyrG1 inp d).length)] else [])

/-! Concrete inputs used by counterexamples and witnesses. -/

/-- An all-ones tile. -/
def onesT : TileQ := fun _ _ => 1

/-- An all-zeros tile. -/
def zerosT : TileQ := fun _ _ => 0

/-- A `3 × 3` tile grid whose middle block extent is `2` while the first is
`1` — legal for the dispatch guard, but irregular in the interior. -/
def syCex : SyInp where
  mt := 3
  nb := fun j => if j = 1 then 2 else 1
  kb := 1
  isLocal := fun _ _ => true
  tileDevice := fun _ _ => 0
  num_devices := 1
  opA := Op.NoTrans
  opB := Op.NoTrans
  opC := Op.NoTrans
  uploC := Uplo.Lower
  is_real := true
  Aph := fun _ => onesT
  Bph := fun _ => onesT
  Cph := fun _ _ => zerosT
  alpha := 1
  beta := 0

/-- A regular `2 × 2` tile grid with unit blocks, all tiles local on one
device. -/
def syW : SyInp where
  mt := 2
  nb := fun _ => 1
  kb := 1
  isLocal := fun _ _ => true
  tileDevice := fun _ _ => 0
  num_devices := 1
  opA := Op.NoTrans
  opB := Op.NoTrans
  opC := Op.NoTrans
  uploC := Uplo.Lower
  is_real := true
  Aph := fun i => fun _ _ => (i : ℚ) + 2
  Bph := fun i => fun _ _ => (i : ℚ) + 5
  Cph := fun _ _ => onesT
  alpha := 1
  beta := 1

/-- A `1 × 1` tile grid with its only tile local: the Devices single-tile
short-cut fires. -/
def sySingle : SyInp where
  mt := 1
  nb := fun _ => 1
  kb := 1
  isLocal := fun _ _ => true
  tileDevice := fun _ _ => 0
  num_devices := 1
  opA := Op.NoTrans
  opB := Op.NoTrans
  opC := Op.NoTrans
  uploC := Uplo.Lower
  is_real := true
  Aph := fun _ => onesT
  Bph := fun _ => onesT
  Cph := fun _ _ => zerosT
  alpha := 1
  beta := 1

/-- View of one stored tile through the transpose tag: the logical tile
`(i, j)` of `C` is `clv` of the tile stored at `physPos (i, j)`. -/
def clv (inp : SyInp) (t : TileQ) : TileQ :=
  if inp.uploC = Uplo.Lower then t else trT t

/-- Device identifiers returned by the tile-to-device map are valid device
indices (well-formedness of the Distributed Matrix collaborator). -/
def devWF (inp : SyInp) : Prop :=
  ∀ a b, inp.tileDevice a b < inp.num_devices

/-- Reference Frobenius-norm-squared of a symmetric tile stored as its
`uplo` triangle: the declared strict triangle counted twice plus the
squared (real) diagonal counted once. -/
def refFroSq (uplo : Uplo) (n : ℕ) (tq : ℕ → ℕ → ℚ) : ℚ :=
  (match uplo with
    | Uplo.Lower => 2 * ∑ r in Finset.range n, ∑ c in Finset.range r, |tq r c| ^ 2
    | Uplo.Upper =>
      2 * ∑ r in Finset.range n, ∑ c in Finset.range (n - (r + 1)), |tq r (r + 1 + c)| ^ 2)
    + ∑ i in Finset.range n, |tq i i| ^ 2

/-- A NaN-free sample tile. -/
def wT1 : TileR := fun r c => some ((r : ℚ) + 2 * (c : ℚ))

/-- `wT1` with the strictly-upper (mirrored, undeclared for `Lower`)
triangle overwritten. -/
def wT2 : TileR := fun r c => if r < c then some 99 else some ((r : ℚ) + 2 * (c : ℚ))

/-- A tile whose only NaN sits at `(1, 0)`, in the declared lower
triangle. -/
def wTN : TileR := fun r c => if r = 1 ∧ c = 0 then none else some 1

/-- A NaN-free rational sample tile. -/
def wQ : ℕ → ℕ → ℚ := fun r c => (r : ℚ) + (c : ℚ) + 1

/-- A sample output-values array. -/
def wVals : ℕ → RExt := fun p => some ((p : ℚ) + 7)

/-! General list lemmas used throughout. -/

theorem count_flatMap {α β : Type} [BEq β] (l : List α) (f : α → List β) (x : β) :
    (l.flatMap f).count x = (l.map (fun a => (f a).count x)).sum := by
  induction l with
  | nil => simp
  | cons a t ih => simp [List.flatMap_cons, List.count_append, ih]

theorem filter_eq_nil_of_not_mem {α : Type} [DecidableEq α] (l : List α) (p : α)
    (h : p ∉ l) : l.filter (fun q => q = p) = [] := by
  induction l with
  | nil => rfl
  | cons a t ih =>
    simp only [List.mem_cons, not_or] at h
    simp [List.filter_cons, Ne.symm h.1, ih h.2]

theorem nodup_filter_eq {α : Type} [DecidableEq α] (l : List α) (h : l.Nodup) (p : α) :
    l.filter (fun q => q = p) = if p ∈ l then [p] else [] := by
  induction l with
  | nil => simp
  | cons a t ih =>
    simp only [List.nodup_cons] at h
    by_cases hap : a = p
    · subst hap
      simp [List.filter_cons, filter_eq_nil_of_not_mem t a h.1, h.1]
    · simp [List.filter_cons, hap, ih h.2, Ne.symm hap]

theorem filter_map_comm {α β : Type} (l : List α) (f : α → β) (p : β → Bool) :
    (l.map f).filter p = (l.filter (fun a => p (f a))).map f := by
  induction l with
  | nil => rfl
  | cons a t ih =>
    by_cases h : p (f a) <;> simp [List.filter_cons, h, ih]

theorem filter_flatMap_comm {α β : Type} (l : List α) (f : α → List β) (p : β → Bool) :
    (l.flatMap f).filter p = l.flatMap (fun a => (f a).filter p) := by
  induction l with
  | nil => rfl
  | cons a t ih => simp [List.flatMap_cons, List.filter_append, ih]

theorem filter_filter_comm {α : Type} (l : List α) (p q : α → Bool) :
    (l.filter p).filter q = l.filter (fun a => p a && q a) := by
  induction l with
  | nil => rfl
  | cons a t ih =>
    by_cases hp : p a <;> by_cases hq : q a <;> simp [List.filter_cons, hp, hq, ih]

/-- Value of the physical `C` storage after a realization's writes: at each
stored position, the composition in program order of the updates aimed at
that position, applied to the initial tile. -/
theorem applyItems_at (l : List Item) (s : CState) (p : ℕ × ℕ) :
    applyItems l s p.1 p.2
      = ((l.filter (fun it => it.1 = p)).map (fun it => it.2)).foldl
          (fun t f => f t) (s p.1 p.2) := by
  induction l generalizing s with
  | nil => rfl
  | cons it t ih =>
    simp only [applyItems, List.foldl_cons] at *
    rw [ih]
    by_cases h : it.1 = p
    · subst h
      simp [List.filter_cons, updAt]
    · have h2 : ¬(p.1 = it.1.1 ∧ p.2 = it.1.2) := by
        intro hc
        exact h (Prod.ext hc.1.symm hc.2.symm)
      simp [List.filter_cons, h, updAt, h2]

/-! Claim theorems: dispatch and control-flow claims. -/

/-- C2: the `syr2k` dispatch entry raises synchronously, before any
realization work, if and only if C's stored triangle after normalizing for
its transpose tag is not the lower triangle, A's and B's transpose tags
differ, or the element type is complex and one of A's, B's, C's operators
is conjugate-transpose; otherwise it proceeds to the realization selected
by the execution-target tag. -/
theorem c2_dispatch_raise_iff (target : Target) (is_real : Bool)
    (opA opB opC : Op) (u : Uplo) :
    (syr2kDispatch target is_real opA opB opC u = Except.error () ↔
      specRaises is_real opA opB opC u) ∧
    (syr2kDispatch target is_real opA opB opC u = Except.ok target ↔
      ¬ specRaises is_real opA opB opC u) := by
  have h : (syr2kGuard is_real opA opB opC u = false) ↔
      specRaises is_real opA opB opC u := by
    revert is_real opA opB opC u
    decide
  unfold syr2kDispatch
  by_cases hg : syr2kGuard is_real opA opB opC u
  · have hs : ¬ specRaises is_real opA opB opC u := by
      rw [← h]; simp [hg]
    simp [hg, hs]
  · have hs : specRaises is_real opA opB opC u := h.mp (by simpa using hg)
    simp [hg, hs]

/-- C10: for `batch_count ≥ 1` (indeed for all inputs), `henorm` with norm
kind `Inf` behaves identically to norm kind `One`: the same kernel launch
with the same arguments, the same output values. -/
theorem c10_inf_one (uplo : Uplo) (n : ℕ) (tiles : ℕ → TileR)
    (values : ℕ → RExt) (ldv batch_count : ℕ) (h : 1 ≤ batch_count) :
    henorm Norm.Inf uplo n tiles values ldv batch_count
      = henorm Norm.One uplo n tiles values ldv batch_count := by
  have hb : batch_count ≠ 0 := by omega
  simp [henorm, hb]

/-- Witness for C10 at a concrete batch. -/
theorem c10_inf_one_witness :
    1 ≤ 3 ∧ henorm Norm.Inf Uplo.Lower 2 (fun _ => wT1) wVals 4 3
      = henorm Norm.One Uplo.Lower 2 (fun _ => wT1) wVals 4 3 :=
  ⟨by norm_num, c10_inf_one Uplo.Lower 2 (fun _ => wT1) wVals 4 3 (by norm_num)⟩

/-- C6: for each of the three norm kinds, `henorm` with `batch_count = 0`
is a no-op leaving the output untouched; with `batch_count ≥ 1` and `n = 0`
it zeroes the per-tile output cells (one per tile for max-abs, the
per-column region for one-norm, two per tile for Frobenius) and launches no
kernel; otherwise it issues exactly one kernel launch covering the whole
batch with one work-group per tile. -/
theorem c6_henorm_dispatch (norm : Norm) (uplo : Uplo) (n : ℕ)
    (tiles : ℕ → TileR) (values : ℕ → RExt) (ldv batch_count : ℕ)
    (hn : norm = Norm.Max ∨ norm = Norm.One ∨ norm = Norm.Fro) :
    (batch_count = 0 →
      henorm norm uplo n tiles values ldv batch_count = (values, [])) ∧
    (1 ≤ batch_count → n = 0 →
      henorm norm uplo n tiles values ldv batch_count
        = (memset0 values (zeroedCells norm n batch_count), [])) ∧
    (1 ≤ batch_count → 1 ≤ n →
      (henorm norm uplo n tiles values ldv batch_count).2
        = [⟨kernOf norm, batch_count, 512⟩]) := by
  refine ⟨?_, ?_, ?_⟩
  · intro h
    simp [henorm, h]
  · intro hb hn0
    have hb' : batch_count ≠ 0 := by omega
    rcases hn with rfl | rfl | rfl <;> simp [henorm, hb', hn0, zeroedCells]
  · intro hb hn1
    have hb' : batch_count ≠ 0 := by omega
    have hn' : n ≠ 0 := by omega
    rcases hn with rfl | rfl | rfl <;> simp [henorm, hb', hn', kernOf]

/-- Witness for C6: the Frobenius `n = 0` memset short-cut at a concrete
batch. -/
theorem c6_henorm_dispatch_witness :
    (Norm.Fro = Norm.Max ∨ Norm.Fro = Norm.One ∨ Norm.Fro = Norm.Fro) ∧
    henorm Norm.Fro Uplo.Lower 0 (fun _ => wT1) wVals 2 2
      = (memset0 wVals (zeroedCells Norm.Fro 0 2), []) :=
  ⟨Or.inr (Or.inr rfl),
    (c6_henorm_dispatch Norm.Fro Uplo.Lower 0 (fun _ => wT1) wVals 2 2
      (Or.inr (Or.inr rfl))).2.1 (by norm_num) rfl⟩

/-- C3 (supporting theorem for the code bug): on a `1 × 1` tile grid with
the tile local, the Devices realization's single concurrent unit has no
`try/catch` around its body — unlike every unit of the host realizations —
even though the input passes the dispatch guard. -/
theorem c3_single_tile_unit_uncaught :
    allUnitsCatch (devicesUnits sySingle) = false ∧
    allUnitsCatch (hostTaskUnits sySingle) = true ∧
    allUnitsCatch (hostNestUnits sySingle) = true ∧
    allUnitsCatch (hostBatchUnits sySingle) = true ∧
    syr2kPre sySingle = true := by decide

/-- C7 counterexample: the Devices single-tile unit reads tile `A(0,0)`
once but decrements its life twice (`A.tileTick(0,0)` appears twice in the
source), contradicting "exactly once"; same for `B(0,0)`. -/
theorem c7_single_tile_double_tick :
    devicesUnits sySingle = [devUnitAt sySingle 0] ∧
    (devUnitAt sySingle 0).reads.count (true, 0) = 1 ∧
    (devUnitAt sySingle 0).ticks.count (true, 0) = 2 ∧
    (devUnitAt sySingle 0).ticks.count (false, 0) = 2 ∧
    syr2kPre sySingle = true := by decide

/-- C9 counterexample: on a `1 × 1` grid with the tile local (no
strictly-lower tiles), the HostBatch realization without the batched
back-end completes without raising at all — the
`slate_not_implemented` raise is not reached, so the claim's "fails
immediately upon selection for every input" is false. -/
theorem c9_hostbatch_no_raise :
    syr2kPre sySingle = true ∧ hostBatchCount sySingle = 0 ∧
    hostBatchThrows false sySingle = false ∧
    hostBatchTrace false sySingle = [HBEv.spawnDiag 0] := by decide


/-! Counting lemmas for the tile index lists. -/

theorem count_eq_one_of_nodup_mem {α : Type} [BEq α] [LawfulBEq α] {l : List α}
    (hl : l.Nodup) {a : α} (ha : a ∈ l) : l.count a = 1 := by
  induction l with
  | nil => cases ha
  | cons b t ih =>
    rw [List.count_cons]
    rcases List.mem_cons.mp ha with rfl | hm
    · have hna : a ∉ t := (List.nodup_cons.mp hl).1
      simp [List.count_eq_zero.mpr hna]
    · have hb : b ≠ a := by
        rintro rfl
        exact (List.nodup_cons.mp hl).1 hm
      simp [ih (List.nodup_cons.mp hl).2 hm, hb, Ne.symm hb]

theorem count_filter_ite {α : Type} [BEq α] [LawfulBEq α] (l : List α)
    (p : α → Bool) (x : α) :
    (l.filter p).count x = if p x then l.count x else 0 := by
  induction l with
  | nil => simp
  | cons a t ih =>
    by_cases hpa : p a
    · by_cases hax : a = x
      · subst hax
        simp [List.filter_cons, hpa, List.count_cons, ih]
      · simp [List.filter_cons, hpa, List.count_cons, ih, Ne.symm hax]
    · by_cases hax : a = x
      · subst hax
        simp [List.filter_cons, hpa, List.count_cons, ih]
      · simp [List.filter_cons, hpa, List.count_cons, ih, Ne.symm hax]

theorem filter_eq_replicate_count {α : Type} [BEq α] [LawfulBEq α]
    [DecidableEq α] (l : List α) (p : α) :
    l.filter (fun q => q = p) = List.replicate (l.count p) p := by
  induction l with
  | nil => simp
  | cons a t ih =>
    by_cases h : a = p
    · subst h
      simp [List.filter_cons, List.count_cons, ih, List.replicate_succ]
    · simp [List.filter_cons, List.count_cons, ih, h, Ne.symm h]

theorem count_map_pairFst (l : List ℕ) (hl : l.Nodup) (j : ℕ) (x : ℕ × ℕ) :
    (l.map (fun i => (i, j))).count x = if x.2 = j ∧ x.1 ∈ l then 1 else 0 := by
  by_cases hc : x.2 = j ∧ x.1 ∈ l
  · rw [if_pos hc]
    apply count_eq_one_of_nodup_mem (hl.map (fun a b h => by injection h))
    exact List.mem_map.mpr ⟨x.1, hc.2, by ext <;> simp [hc.1]⟩
  · rw [if_neg hc]
    apply List.count_eq_zero.mpr
    intro hm
    obtain ⟨a, ha, he⟩ := List.mem_map.mp hm
    exact hc ⟨by rw [← he], by rw [← he]; exact ha⟩

theorem count_map_pairSnd (l : List ℕ) (hl : l.Nodup) (i : ℕ) (x : ℕ × ℕ) :
    (l.map (fun j => (i, j))).count x = if x.1 = i ∧ x.2 ∈ l then 1 else 0 := by
  by_cases hc : x.1 = i ∧ x.2 ∈ l
  · rw [if_pos hc]
    apply count_eq_one_of_nodup_mem (hl.map (fun a b h => by injection h))
    exact List.mem_map.mpr ⟨x.2, hc.2, by ext <;> simp [hc.1]⟩
  · rw [if_neg hc]
    apply List.count_eq_zero.mpr
    intro hm
    obtain ⟨a, ha, he⟩ := List.mem_map.mp hm
    exact hc ⟨by rw [← he], by rw [← he]; exact ha⟩

theorem count_map_pairDiag (l : List ℕ) (hl : l.Nodup) (x : ℕ × ℕ) :
    (l.map (fun j => (j, j))).count x = if x.1 = x.2 ∧ x.1 ∈ l then 1 else 0 := by
  by_cases hc : x.1 = x.2 ∧ x.1 ∈ l
  · rw [if_pos hc]
    apply count_eq_one_of_nodup_mem (hl.map (fun a b h => by injection h))
    exact List.mem_map.mpr ⟨x.1, hc.2, by ext <;> simp [hc.1]⟩
  · rw [if_neg hc]
    apply List.count_eq_zero.mpr
    intro hm
    obtain ⟨a, ha, he⟩ := List.mem_map.mp hm
    exact hc ⟨by rw [← he], by rw [← he]; exact ha⟩

theorem mem_range_iff {a len x : ℕ} : x ∈ List.range' a len ↔ a ≤ x ∧ x < a + len := by
  constructor
  · intro h
    obtain ⟨i, hi, rfl⟩ := List.mem_range'.mp h
    omega
  · intro hx
    exact List.mem_range'.mpr ⟨x - a, by omega, by omega⟩

theorem sum_map_indicator (m j v : ℕ) :
    ((List.range m).map (fun x => if x = j then v else 0)).sum
      = if j < m then v else 0 := by
  induction m with
  | zero => simp
  | succ m ih =>
    rw [List.range_succ, List.map_append, List.sum_append, ih]
    simp only [List.map_cons, List.map_nil, List.sum_cons, List.sum_nil]
    by_cases hj : m = j
    · subst hj
      simp
    · have h1 : (if m = j then v else 0) = 0 := by simp [hj]
      rw [h1]
      by_cases hm : j < m
      · have hm1 : j < m + 1 := by omega
        simp [hm, hm1]
      · have hm1 : ¬(j < m + 1) := by omega
        simp [hm, hm1]

theorem count_lowerIdx (mt : ℕ) (x : ℕ × ℕ) :
    (lowerIdx mt).count x = if x.2 ≤ x.1 ∧ x.1 < mt then 1 else 0 := by
  have he : ∀ j, ((List.range' j (mt - j)).map (fun i => (i, j))).count x
      = if j = x.2 then (if x.2 ≤ x.1 ∧ x.1 < mt then 1 else 0) else 0 := by
    intro j
    rw [count_map_pairFst _ (List.nodup_range' ..)]
    simp only [mem_range_iff]
    split_ifs <;> first | rfl | omega
  unfold lowerIdx
  simp only [count_flatMap, he]
  rw [sum_map_indicator]
  split_ifs <;> first | rfl | omega

theorem count_strictLowerIdx (mt : ℕ) (x : ℕ × ℕ) :
    (strictLowerIdx mt).count x = if x.2 < x.1 ∧ x.1 < mt then 1 else 0 := by
  have he : ∀ j, ((List.range' (j + 1) (mt - (j + 1))).map (fun i => (i, j))).count x
      = if j = x.2 then (if x.2 < x.1 ∧ x.1 < mt then 1 else 0) else 0 := by
    intro j
    rw [count_map_pairFst _ (List.nodup_range' ..)]
    simp only [mem_range_iff]
    split_ifs <;> first | rfl | omega
  unfold strictLowerIdx
  simp only [count_flatMap, he]
  rw [sum_map_indicator]
  split_ifs <;> first | rfl | omega

theorem count_nestOffIdx (mt : ℕ) (x : ℕ × ℕ) :
    (nestOffIdx mt).count x = if x.2 < x.1 ∧ x.1 < mt then 1 else 0 := by
  have he : ∀ j, (((List.range mt).filter (fun i => j + 1 ≤ i)).map (fun i => (i, j))).count x
      = if j = x.2 then (if x.2 < x.1 ∧ x.1 < mt then 1 else 0) else 0 := by
    intro j
    rw [count_map_pairFst _ ((List.nodup_range mt).filter _)]
    simp only [List.mem_filter, List.mem_range, decide_eq_true_eq]
    split_ifs <;> first | rfl | omega
  unfold nestOffIdx
  simp only [count_flatMap, he]
  rw [sum_map_indicator]
  split_ifs <;> first | rfl | omega

theorem count_interiorIdx (mt : ℕ) (x : ℕ × ℕ) :
    (interiorIdx mt).count x = if x.2 < x.1 ∧ x.1 < mt - 1 then 1 else 0 := by
  have he : ∀ j, ((List.range' (j + 1) ((mt - 1) - (j + 1))).map (fun i => (i, j))).count x
      = if j = x.2 then (if x.2 < x.1 ∧ x.1 < mt - 1 then 1 else 0) else 0 := by
    intro j
    rw [count_map_pairFst _ (List.nodup_range' ..)]
    simp only [mem_range_iff]
    split_ifs <;> first | rfl | omega
  unfold interiorIdx
  simp only [count_flatMap, he]
  rw [sum_map_indicator]
  split_ifs <;> first | rfl | omega

theorem count_bottomIdx (mt : ℕ) (x : ℕ × ℕ) :
    (bottomIdx mt).count x = if x.1 = mt - 1 ∧ x.2 < mt - 1 then 1 else 0 := by
  unfold bottomIdx
  rw [count_map_pairSnd _ (List.nodup_range _)]
  simp [List.mem_range]

/-! Life-count (tick) lemmas. -/

theorem count_flatMap_quad (l : List (ℕ × ℕ)) (s : Bool) (a : ℕ) :
    ((l.flatMap devTickQuad).count (s, a))
      = (l.filter (fun p => p.1 = a)).length + (l.filter (fun p => p.2 = a)).length := by
  induction l with
  | nil => simp
  | cons p t ih =>
    rw [List.flatMap_cons, List.count_append, ih]
    have hq : (devTickQuad p).count (s, a)
        = (if p.1 = a then 1 else 0) + (if p.2 = a then 1 else 0) := by
      cases s <;> by_cases h1 : p.1 = a <;> by_cases h2 : p.2 = a <;>
        simp [devTickQuad, List.count_cons, h1, h2, Prod.ext_iff]
    rw [hq]
    by_cases h1 : p.1 = a <;> by_cases h2 : p.2 = a <;>
      simp [List.filter_cons, h1, h2] <;> omega

/-- C7 amended: each host-realization unit decrements each tile it read
exactly once; a Devices unit instead issues, for each local lower tile
`C(i, j)` it handles, one decrement through each of the four index uses
`A(i,0), A(j,0), B(i,0), B(j,0)` — so its total decrement count of a tile
equals the number of handled tiles naming it as block row plus the number
naming it as block column (2 per diagonal tile, and 2 per operand tile in
the single-tile short-cut). -/
theorem c7_tick_counts (inp : SyInp) :
    (∀ u ∈ hostTaskUnits inp ++ hostNestUnits inp ++ hostBatchUnits inp,
      ∀ x ∈ u.reads, u.ticks.count x = 1) ∧
    (∀ d s a, (devUnitAt inp d).ticks.count (s, a)
        = ((devHandled inp d).filter (fun p => p.1 = a)).length
          + ((devHandled inp d).filter (fun p => p.2 = a)).length) := by
  constructor
  · intro u hu x hx
    have hp : ∃ p : ℕ × ℕ, u = hostLowerUnit p := by
      simp only [List.mem_append, hostTaskUnits, hostNestUnits, hostBatchUnits,
        List.mem_map, List.mem_filter] at hu
      rcases hu with (⟨p, _, he⟩ | (⟨j, _, he⟩ | ⟨p, _, he⟩)) | ⟨j, _, he⟩
      · exact ⟨p, he.symm⟩
      · exact ⟨(j, j), he.symm⟩
      · exact ⟨p, he.symm⟩
      · exact ⟨(j, j), he.symm⟩
    obtain ⟨p, rfl⟩ := hp
    by_cases hd : p.1 = p.2
    · simp only [hostLowerUnit, if_pos hd] at hx ⊢
      simp only [List.mem_cons, List.mem_singleton, List.not_mem_nil, or_false] at hx
      rcases hx with rfl | rfl <;> simp [List.count_cons, Prod.ext_iff]
    · simp only [hostLowerUnit, if_neg hd] at hx ⊢
      simp only [List.mem_cons, List.mem_singleton, List.not_mem_nil, or_false] at hx
      rcases hx with rfl | rfl | rfl | rfl <;>
        simp [List.count_cons, Prod.ext_iff, hd, Ne.symm hd]
  · intro d s a
    exact count_flatMap_quad (devHandled inp d) s a

/-- Witness for C7 amended: a host off-diagonal unit ticks the tile
`A(1,0)` it read exactly once; the Devices unit of the regular sample input
obeys the per-handled-tile count formula. -/
theorem c7_tick_counts_witness :
    (hostLowerUnit (1, 0)).ticks.count (true, 1) = 1 ∧
    (devUnitAt syW 0).ticks.count (true, 0)
      = ((devHandled syW 0).filter (fun p => p.1 = 0)).length
        + ((devHandled syW 0).filter (fun p => p.2 = 0)).length :=
  ⟨(c7_tick_counts syW).1 (hostLowerUnit (1, 0)) (by decide) (true, 1) (by decide),
    (c7_tick_counts syW).2 0 true 0⟩

/-! HostBatch back-end availability. -/

theorem guard_opAeffE (inp : SyInp) (h : syr2kPre inp = true) :
    opAeffE inp = some (opAeffD inp) := by
  have hg : ∀ (b : Bool) (oa ob oc : Op) (u : Uplo), syr2kGuard b oa ob oc u = true →
      ¬(¬oc = Op.NoTrans ∧ ¬oa = Op.NoTrans ∧ ¬(oa = oc ∨ b = true)) := by decide
  unfold syr2kPre at h
  have hx := hg _ _ _ _ _ h
  have hsome : ∃ o, opAeffE inp = some o := by
    unfold opAeffE
    by_cases h1 : inp.opC = Op.NoTrans
    · exact ⟨inp.opA, by simp [h1]⟩
    · by_cases h2 : inp.opA = Op.NoTrans
      · exact ⟨inp.opC, by simp [h1, h2]⟩
      · have h3 : inp.opA = inp.opC ∨ inp.is_real = true := by tauto
        exact ⟨Op.NoTrans, by simp [h1, h2, h3]⟩
  obtain ⟨o, ho⟩ := hsome
  rw [ho]
  unfold opAeffD
  rw [ho]
  simp

/-- C9 amended: with the batched host back-end unavailable, the HostBatch
realization raises if and only if some locally-owned strictly-lower tile of
`C` exists (`batch_count > 0`); when it raises, the raise is the last event
of the trace, after all diagonal tasks are spawned and all off-diagonal
tiles are loaded — not immediately upon selection of the realization. -/
theorem c9_hostbatch_raise_iff (inp : SyInp) (h : syr2kPre inp = true) :
    (hostBatchThrows false inp = true ↔ hostBatchCount inp ≠ 0) ∧
    (hostBatchCount inp ≠ 0 →
      hostBatchTrace false inp
        = ((List.range inp.mt).filter (fun j => inp.isLocal j j)).map HBEv.spawnDiag
          ++ (((strictLowerIdx inp.mt).filter (isLoc inp)).map
              (fun p => HBEv.loadTiles p.1 p.2)
            ++ [HBEv.notImplRaise])) := by
  have ho := guard_opAeffE inp h
  constructor
  · simp [hostBatchThrows, ho]
  · intro hb
    simp [hostBatchTrace, ho, if_neg hb]

/-- Witness for C9 amended at a concrete input with one strictly-lower
local tile. -/
theorem c9_hostbatch_raise_iff_witness :
    syr2kPre syW = true ∧
    (hostBatchThrows false syW = true ↔ hostBatchCount syW ≠ 0) :=
  ⟨by decide, (c9_hostbatch_raise_iff syW (by decide)).1⟩

/-! Devices batch-group partition. -/

/-- C8: on a square grid with more than one block column, every
locally-owned device-resident strictly-lower tile of `C` appears in exactly
one of the interior/bottom-row gemm groups (the same groups serve both
product orientations), every such diagonal tile appears in exactly one of
the interior-diagonal/corner syr2k groups, tiles not qualifying appear in
neither, and each batched call is issued exactly when its group is
nonempty. -/
theorem c8_batch_partition (inp : SyInp) (h2 : 2 ≤ inp.mt) :
    (∀ d i j, j < i → i < inp.mt → isLocDev inp d (i, j) = true →
      (devGemmG00 inp d).count (i, j) + (devGemmG10 inp d).count (i, j) = 1) ∧
    (∀ d i j, ¬(j < i ∧ i < inp.mt ∧ isLocDev inp d (i, j) = true) →
      (devGemmG00 inp d).count (i, j) = 0 ∧ (devGemmG10 inp d).count (i, j) = 0) ∧
    (∀ d j, j < inp.mt → isLocDev inp d (j, j) = true →
      (devSyrG0 inp d).count (j, j) + (devSyrG1 inp d).count (j, j) = 1) ∧
    (∀ d j, ¬(j < inp.mt ∧ isLocDev inp d (j, j) = true) →
      (devSyrG0 inp d).count (j, j) = 0 ∧ (devSyrG1 inp d).count (j, j) = 0) ∧
    (∀ d,
      ((BK.gemm00 1, (devGemmG00 inp d).length) ∈ devCalls inp d ↔ devGemmG00 inp d ≠ [])
      ∧ ((BK.gemm10 1, (devGemmG10 inp d).length) ∈ devCalls inp d ↔ devGemmG10 inp d ≠ [])
      ∧ ((BK.syrDiag, (devSyrG0 inp d).length) ∈ devCalls inp d ↔ devSyrG0 inp d ≠ [])
      ∧ ((BK.syrCorner, (devSyrG1 inp d).length) ∈ devCalls inp d ↔ devSyrG1 inp d ≠ [])) := by
  have hg00 : ∀ d i j, (devGemmG00 inp d).count (i, j)
      = if isLocDev inp d (i, j) = true
        then (if j < i ∧ i < inp.mt - 1 then 1 else 0) else 0 := by
    intro d i j
    rw [devGemmG00, count_filter_ite, count_interiorIdx]
  have hg10 : ∀ d i j, (devGemmG10 inp d).count (i, j)
      = if isLocDev inp d (i, j) = true
        then (if i = inp.mt - 1 ∧ j < inp.mt - 1 then 1 else 0) else 0 := by
    intro d i j
    rw [devGemmG10, count_filter_ite, count_bottomIdx]
  have hs0 : ∀ d j, (devSyrG0 inp d).count (j, j)
      = if j < inp.mt - 1 ∧ isLocDev inp d (j, j) = true then 1 else 0 := by
    intro d j
    rw [devSyrG0, count_map_pairDiag _ ((List.nodup_range _).filter _)]
    have hiff : (((j, j) : ℕ × ℕ).1 = ((j, j) : ℕ × ℕ).2
          ∧ ((j, j) : ℕ × ℕ).1 ∈ (List.range (inp.mt - 1)).filter
            (fun j' => isLocDev inp d (j', j')))
        ↔ (j < inp.mt - 1 ∧ isLocDev inp d (j, j) = true) := by
      simp [List.mem_filter, List.mem_range]
    rw [if_congr hiff rfl rfl]
  have hs1 : ∀ d j, (devSyrG1 inp d).count (j, j)
      = if j = inp.mt - 1 ∧ isLocDev inp d (inp.mt - 1, inp.mt - 1) = true
        then 1 else 0 := by
    intro d j
    rw [devSyrG1]
    by_cases h : isLocDev inp d (inp.mt - 1, inp.mt - 1) = true
    · simp only [h, if_true, and_true]
      by_cases hj : j = inp.mt - 1
      · subst hj
        simp
      · simp [List.count_cons, Prod.ext_iff, hj]
    · simp [h]
  refine ⟨?_, ?_, ?_, ?_, ?_⟩
  · intro d i j hji him hl
    rw [hg00, hg10]
    simp only [hl, if_true]
    split_ifs <;> omega
  · intro d i j hn
    refine ⟨?_, ?_⟩
    · rw [hg00]
      by_cases hl : isLocDev inp d (i, j) = true
      · have hn' : ¬(j < i ∧ i < inp.mt) := fun hc => hn ⟨hc.1, hc.2, hl⟩
        simp only [hl, if_true]
        split_ifs <;> omega
      · simp [hl]
    · rw [hg10]
      by_cases hl : isLocDev inp d (i, j) = true
      · have hn' : ¬(j < i ∧ i < inp.mt) := fun hc => hn ⟨hc.1, hc.2, hl⟩
        simp only [hl, if_true]
        split_ifs <;> omega
      · simp [hl]
  · intro d j hjm hl
    rw [hs0, hs1]
    by_cases hin : j < inp.mt - 1
    · have hj : ¬(j = inp.mt - 1) := by omega
      simp [hin, hl, hj]
    · have hj : j = inp.mt - 1 := by omega
      subst hj
      simp [hin, hl]
  · intro d j hn
    refine ⟨?_, ?_⟩
    · rw [hs0]
      by_cases hl : isLocDev inp d (j, j) = true
      · have hin : ¬ j < inp.mt - 1 := fun hc => hn ⟨by omega, hl⟩
        simp [hin]
      · simp [hl]
    · rw [hs1]
      by_cases hj : j = inp.mt - 1
      · subst hj
        by_cases hl : isLocDev inp d (inp.mt - 1, inp.mt - 1) = true
        · exact absurd ⟨by omega, hl⟩ hn
        · simp [hl]
      · simp [hj]
  · intro d
    refine ⟨?_, ?_, ?_, ?_⟩ <;> constructor
    · intro hm hnil
      rw [devCalls] at hm
      simp [hnil] at hm
    · intro hnil
      have hlen : (devGemmG00 inp d).length ≠ 0 := by
        simpa [List.length_eq_zero] using hnil
      rw [devCalls]
      simp [hlen]
    · intro hm hnil
      rw [devCalls] at hm
      simp [hnil] at hm
    · intro hnil
      have hlen : (devGemmG10 inp d).length ≠ 0 := by
        simpa [List.length_eq_zero] using hnil
      rw [devCalls]
      simp [hlen]
    · intro hm hnil
      rw [devCalls] at hm
      simp [hnil] at hm
    · intro hnil
      have hlen : (devSyrG0 inp d).length ≠ 0 := by
        simpa [List.length_eq_zero] using hnil
      rw [devCalls]
      simp [hlen]
    · intro hm hnil
      rw [devCalls] at hm
      simp [hnil] at hm
    · intro hnil
      have hlen : (devSyrG1 inp d).length ≠ 0 := by
        simpa [List.length_eq_zero] using hnil
      rw [devCalls]
      simp [hlen]

/-- Witness for C8 at the regular sample input: tile `(1,0)` lands exactly
once in the two gemm groups of device 0, diagonal `(1,1)` exactly once in
the syr2k groups. -/
theorem c8_batch_partition_witness :
    2 ≤ syW.mt ∧
    (devGemmG00 syW 0).count (1, 0) + (devGemmG10 syW 0).count (1, 0) = 1 ∧
    (devSyrG0 syW 0).count (1, 1) + (devSyrG1 syW 0).count (1, 1) = 1 :=
  ⟨by decide,
    (c8_batch_partition syW (by decide)).1 0 1 0 (by decide) (by decide) (by decide),
    (c8_batch_partition syW (by decide)).2.2.1 0 1 (by decide) (by decide)⟩


/-! Norm-kernel lemmas: NaN absorption and triangle congruence. -/

theorem stored_lower (r c : ℕ) : stored Uplo.Lower r c ↔ c ≤ r := Iff.rfl

theorem stored_upper (r c : ℕ) : stored Uplo.Upper r c ↔ r ≤ c := Iff.rfl

theorem foldl_congr_g {α β : Type} (l : List β) (f g : α → β → α) (a : α)
    (h : ∀ x ∈ l, ∀ acc, f acc x = g acc x) : l.foldl f a = l.foldl g a := by
  induction l generalizing a with
  | nil => rfl
  | cons b t ih =>
    rw [List.foldl_cons, List.foldl_cons, h b (List.mem_cons_self b t)]
    exact ih _ (fun x hx acc => h x (List.mem_cons_of_mem _ hx) acc)

theorem max_nan_none_right (x : RExt) : max_nan x none = none := by
  cases x <;> rfl

theorem max_nan_none_left (x : RExt) : max_nan none x = none := rfl

theorem combine_sumsq_none_left (q : RExt) (p : RExt × RExt) :
    combine_sumsq (none, q) p = (none, none) := by
  rcases p with ⟨ps, pq⟩
  cases ps <;> rfl

theorem combine_sumsq_none_right (p : RExt × RExt) (q : RExt) :
    combine_sumsq p (none, q) = (none, none) := by
  rcases p with ⟨ps, pq⟩
  cases ps <;> rfl

theorem add_sumsq_none (p : RExt × RExt) : add_sumsq p none = (none, none) :=
  combine_sumsq_none_right p (some 1)

theorem add_sumsq_scale_none (q : RExt) (x : RExt) :
    add_sumsq (none, q) x = (none, none) :=
  combine_sumsq_none_left q (x, some 1)

theorem foldl_maxA_none (l : List ℕ) (g : ℕ → RExt) :
    l.foldl (fun m j => max_nan m (g j)) none = none := by
  induction l with
  | nil => rfl
  | cons a t ih => simpa [max_nan_none_left] using ih

theorem foldl_maxA_elem (l : List ℕ) (g : ℕ → RExt) (x : ℕ) (hx : x ∈ l)
    (hg : g x = none) (a : RExt) :
    l.foldl (fun m j => max_nan m (g j)) a = none := by
  induction l generalizing a with
  | nil => cases hx
  | cons b t ih =>
    rw [List.foldl_cons]
    rcases List.mem_cons.mp hx with rfl | hm
    · rw [hg, max_nan_none_right]
      exact foldl_maxA_none t g
    · exact ih hm _

theorem foldl_maxB_none (l : List ℕ) (g : ℕ → RExt) :
    l.foldl (fun m i => max_nan (g i) m) none = none := by
  induction l with
  | nil => rfl
  | cons c u ih =>
    rw [List.foldl_cons, max_nan_none_right]
    exact ih

theorem foldl_maxB_elem (l : List ℕ) (g : ℕ → RExt) (x : ℕ) (hx : x ∈ l)
    (hg : g x = none) (a : RExt) :
    l.foldl (fun m i => max_nan (g i) m) a = none := by
  induction l generalizing a with
  | nil => cases hx
  | cons b t ih =>
    rw [List.foldl_cons]
    rcases List.mem_cons.mp hx with rfl | hm
    · rw [hg, max_nan_none_left]
      exact foldl_maxB_none t g
    · exact ih hm _

theorem foldl_add_sumsq_none (l : List ℕ) (g : ℕ → RExt) :
    l.foldl (fun p j => add_sumsq p (g j)) (none, none) = (none, none) := by
  induction l with
  | nil => rfl
  | cons a t ih =>
    rw [List.foldl_cons, add_sumsq_scale_none]
    exact ih

theorem foldl_add_sumsq_elem (l : List ℕ) (g : ℕ → RExt) (x : ℕ) (hx : x ∈ l)
    (hg : g x = none) (p : RExt × RExt) :
    l.foldl (fun p j => add_sumsq p (g j)) p = (none, none) := by
  induction l generalizing p with
  | nil => cases hx
  | cons b t ih =>
    rw [List.foldl_cons]
    rcases List.mem_cons.mp hx with rfl | hm
    · rw [hg, add_sumsq_none]
      exact foldl_add_sumsq_none t g
    · exact ih hm _

theorem foldl_combine_none (l : List ℕ) (f : ℕ → RExt × RExt) :
    l.foldl (fun p i => combine_sumsq p (f i)) (none, none) = (none, none) := by
  induction l with
  | nil => rfl
  | cons a t ih =>
    rw [List.foldl_cons, combine_sumsq_none_left]
    exact ih

theorem foldl_combine_elem (l : List ℕ) (f : ℕ → RExt × RExt) (x : ℕ) (hx : x ∈ l)
    (hf : f x = (none, none)) (p : RExt × RExt) :
    l.foldl (fun p i => combine_sumsq p (f i)) p = (none, none) := by
  induction l generalizing p with
  | nil => cases hx
  | cons b t ih =>
    rw [List.foldl_cons]
    rcases List.mem_cons.mp hx with rfl | hm
    · rw [hf, combine_sumsq_none_right]
      exact foldl_combine_none t f
    · exact ih hm _

theorem mem_chunkRows_iff (bdim n c i : ℕ) :
    i ∈ chunkRows bdim n c ↔ i < n ∧ i % bdim = c := by
  simp [chunkRows, List.mem_filter, List.mem_range]

theorem henorm_max_row_nan (uplo : Uplo) (n : ℕ) (t : TileR) (r0 c0 : ℕ)
    (hr : r0 < n) (hc : c0 < n) (hst : stored uplo r0 c0) (ht : t r0 c0 = none) :
    henorm_max_row uplo n t r0 = none := by
  unfold henorm_max_row
  by_cases hd : c0 = r0
  · subst hd
    rw [show rabs (rre (t c0 c0)) = none by rw [ht]; rfl, max_nan_none_right]
  · cases uplo
    · rw [stored_lower] at hst
      have hlt : c0 < r0 := by omega
      rw [if_pos rfl,
        foldl_maxA_elem (List.range r0) _ c0 (List.mem_range.mpr hlt)
          (by show rabs (t r0 c0) = none; rw [ht]; rfl)]
      rfl
    · rw [stored_upper] at hst
      have hlt : r0 < c0 := by omega
      rw [if_neg (by decide),
        foldl_maxA_elem ((List.range' (r0 + 1) (n - (r0 + 1))).reverse) _ c0
          (List.mem_reverse.mpr (mem_range_iff.mpr (by omega)))
          (by show rabs (t r0 c0) = none; rw [ht]; rfl)]
      rfl

theorem henorm_fro_row_nan (uplo : Uplo) (n : ℕ) (t : TileR) (r0 c0 : ℕ)
    (hr : r0 < n) (hc : c0 < n) (hst : stored uplo r0 c0) (ht : t r0 c0 = none) :
    henorm_fro_row uplo n t r0 = (none, none) := by
  unfold henorm_fro_row fro_double_diag
  by_cases hd : c0 = r0
  · subst hd
    rw [show rabs (rre (t c0 c0)) = none by rw [ht]; rfl, add_sumsq_none]
  · cases uplo
    · rw [stored_lower] at hst
      have hlt : c0 < r0 := by omega
      rw [if_pos rfl,
        foldl_add_sumsq_elem (List.range r0) _ c0 (List.mem_range.mpr hlt)
          (by show rabs (t r0 c0) = none; rw [ht]; rfl) _]
      rw [show rmul ((none, none) : RExt × RExt).2 (some 2) = none from rfl]
      exact add_sumsq_scale_none _ _
    · rw [stored_upper] at hst
      have hlt : r0 < c0 := by omega
      rw [if_neg (by decide),
        foldl_add_sumsq_elem ((List.range' (r0 + 1) (n - (r0 + 1))).reverse) _ c0
          (List.mem_reverse.mpr (mem_range_iff.mpr (by omega)))
          (by show rabs (t r0 c0) = none; rw [ht]; rfl) _]
      rw [show rmul ((none, none) : RExt × RExt).2 (some 2) = none from rfl]
      exact add_sumsq_scale_none _ _

theorem henorm_max_kernel_nan (bdim : ℕ) (hb : 0 < bdim) (uplo : Uplo) (n : ℕ)
    (t : TileR) (r0 c0 : ℕ) (hr : r0 < n) (hc : c0 < n) (hst : stored uplo r0 c0)
    (ht : t r0 c0 = none) :
    henorm_max_kernel bdim uplo n t = none := by
  unfold henorm_max_kernel
  apply foldl_maxA_elem _ _ (r0 % bdim) (List.mem_range.mpr (Nat.mod_lt _ hb))
  unfold henorm_max_chunk
  apply foldl_maxB_elem _ _ r0 ((mem_chunkRows_iff ..).mpr ⟨hr, rfl⟩)
  exact henorm_max_row_nan uplo n t r0 c0 hr hc hst ht

theorem henorm_fro_kernel_nan (uplo : Uplo) (n : ℕ)
    (t : TileR) (r0 c0 : ℕ) (hr : r0 < n) (hc : c0 < n) (hst : stored uplo r0 c0)
    (ht : t r0 c0 = none) :
    henorm_fro_kernel 512 uplo n t = (none, none) := by
  have hrow := henorm_fro_row_nan uplo n t r0 c0 hr hc hst ht
  have hchunk : henorm_fro_chunk 512 uplo n t (r0 % 512) = (none, none) := by
    unfold henorm_fro_chunk
    exact foldl_combine_elem _ _ r0 ((mem_chunkRows_iff ..).mpr ⟨hr, rfl⟩) hrow _
  unfold henorm_fro_kernel
  by_cases h0 : r0 % 512 = 0
  · rw [h0] at hchunk
    rw [hchunk]
    exact foldl_combine_none _ _
  · apply foldl_combine_elem _ _ (r0 % 512) _ hchunk
    rw [mem_range_iff]
    have h1 : r0 % 512 < 512 := Nat.mod_lt _ (by omega)
    have h2 : r0 % 512 ≤ r0 := Nat.mod_le _ _
    omega

theorem henorm_max_row_congr (uplo : Uplo) (n : ℕ) (t t' : TileR) (i : ℕ) (hi : i < n)
    (h : ∀ r c, r < n → c < n → stored uplo r c → t r c = t' r c) :
    henorm_max_row uplo n t i = henorm_max_row uplo n t' i := by
  unfold henorm_max_row
  cases uplo
  · rw [if_pos rfl, if_pos rfl,
      foldl_congr_g _ _ (fun m j => max_nan m (rabs (t' i j))) _
        (fun j hj acc => by
          rw [h i j hi (by have := List.mem_range.mp hj; omega)
            ((stored_lower ..).mpr (by have := List.mem_range.mp hj; omega))]),
      h i i hi hi ((stored_lower ..).mpr le_rfl)]
  · rw [if_neg (by decide), if_neg (by decide),
      foldl_congr_g _ _ (fun m j => max_nan m (rabs (t' i j))) _
        (fun j hj acc => by
          have hj' := mem_range_iff.mp (List.mem_reverse.mp hj)
          rw [h i j hi (by omega) ((stored_upper ..).mpr (by omega))]),
      h i i hi hi ((stored_upper ..).mpr le_rfl)]

theorem henorm_fro_row_congr (uplo : Uplo) (n : ℕ) (t t' : TileR) (i : ℕ) (hi : i < n)
    (h : ∀ r c, r < n → c < n → stored uplo r c → t r c = t' r c) :
    henorm_fro_row uplo n t i = henorm_fro_row uplo n t' i := by
  unfold henorm_fro_row fro_double_diag
  cases uplo
  · rw [if_pos rfl, if_pos rfl,
      foldl_congr_g _ _ (fun p j => add_sumsq p (rabs (t' i j))) _
        (fun j hj acc => by
          rw [h i j hi (by have := List.mem_range.mp hj; omega)
            ((stored_lower ..).mpr (by have := List.mem_range.mp hj; omega))]),
      h i i hi hi ((stored_lower ..).mpr le_rfl)]
  · rw [if_neg (by decide), if_neg (by decide),
      foldl_congr_g _ _ (fun p j => add_sumsq p (rabs (t' i j))) _
        (fun j hj acc => by
          have hj' := mem_range_iff.mp (List.mem_reverse.mp hj)
          rw [h i j hi (by omega) ((stored_upper ..).mpr (by omega))]),
      h i i hi hi ((stored_upper ..).mpr le_rfl)]

theorem henorm_max_kernel_congr (bdim : ℕ) (uplo : Uplo) (n : ℕ) (t t' : TileR)
    (h : ∀ r c, r < n → c < n → stored uplo r c → t r c = t' r c) :
    henorm_max_kernel bdim uplo n t = henorm_max_kernel bdim uplo n t' := by
  unfold henorm_max_kernel
  apply foldl_congr_g
  intro c _ acc
  unfold henorm_max_chunk
  congr 1
  apply foldl_congr_g
  intro i hiC acc2
  rw [henorm_max_row_congr uplo n t t' i ((mem_chunkRows_iff ..).mp hiC).1 h]

theorem henorm_fro_kernel_congr (bdim : ℕ) (uplo : Uplo) (n : ℕ) (t t' : TileR)
    (h : ∀ r c, r < n → c < n → stored uplo r c → t r c = t' r c) :
    henorm_fro_kernel bdim uplo n t = henorm_fro_kernel bdim uplo n t' := by
  have hchunk : ∀ c, henorm_fro_chunk bdim uplo n t c = henorm_fro_chunk bdim uplo n t' c := by
    intro c
    unfold henorm_fro_chunk
    apply foldl_congr_g
    intro i hiC acc2
    rw [henorm_fro_row_congr uplo n t t' i ((mem_chunkRows_iff ..).mp hiC).1 h]
  unfold henorm_fro_kernel
  rw [hchunk 0]
  apply foldl_congr_g
  intro c _ acc
  rw [hchunk c]

theorem henorm_one_col_congr (uplo : Uplo) (n : ℕ) (t t' : TileR) (k : ℕ) (hk : k < n)
    (h : ∀ r c, r < n → c < n → stored uplo r c → t r c = t' r c) :
    henorm_one_col uplo n t k = henorm_one_col uplo n t' k := by
  unfold henorm_one_col
  cases uplo
  · rw [if_pos rfl, if_pos rfl,
      foldl_congr_g _ _ (fun s i => radd s (rabs (t' i k))) _
        (fun i hi acc => by
          have hi' := mem_range_iff.mp hi
          rw [h i k (by omega) hk ((stored_lower ..).mpr (by omega))])]
    congr 1
    rw [foldl_congr_g _ _ (fun s j => radd s (rabs (t' k j))) _
        (fun j hj acc => by
          rw [h k j hk (by have := List.mem_range.mp hj; omega)
            ((stored_lower ..).mpr (by have := List.mem_range.mp hj; omega))]),
      h k k hk hk ((stored_lower ..).mpr le_rfl)]
  · rw [if_neg (by decide), if_neg (by decide),
      foldl_congr_g _ _ (fun s i => radd s (rabs (t' i k))) _
        (fun i hi acc => by
          have hi' := List.mem_range.mp hi
          rw [h i k (by omega) hk ((stored_upper ..).mpr (by omega))])]
    congr 1
    rw [foldl_congr_g _ _ (fun s j => radd s (rabs (t' k j))) _
        (fun j hj acc => by
          have hj' := mem_range_iff.mp (List.mem_reverse.mp hj)
          rw [h k j hk (by omega) ((stored_upper ..).mpr (by omega))]),
      h k k hk hk ((stored_upper ..).mpr le_rfl)]

/-- C4: each per-tile kernel result (max-abs, one-norm per column,
Frobenius pair) is a function only of the entries stored in the declared
triangle plus the (real) diagonal — two tiles agreeing there produce
identical outputs — and a tile with exactly one NaN entry in the declared
triangle or on the diagonal produces a NaN max-abs result and a NaN
Frobenius result. -/
theorem c4_henorm_triangle_nan (uplo : Uplo) (n : ℕ) (hn : 1 ≤ n) (t t' : TileR) :
    ((∀ r c, r < n → c < n → stored uplo r c → t r c = t' r c) →
      henorm_max_kernel 512 uplo n t = henorm_max_kernel 512 uplo n t'
      ∧ (∀ k, k < n → henorm_one_col uplo n t k = henorm_one_col uplo n t' k)
      ∧ henorm_fro_kernel 512 uplo n t = henorm_fro_kernel 512 uplo n t')
    ∧ (∀ r0 c0, r0 < n → c0 < n → stored uplo r0 c0 → t r0 c0 = none →
        (∀ r c, r < n → c < n → stored uplo r c → (r, c) ≠ (r0, c0) → t r c ≠ none) →
        henorm_max_kernel 512 uplo n t = none
        ∧ henorm_fro_kernel 512 uplo n t = (none, none)) := by
  constructor
  · intro h
    exact ⟨henorm_max_kernel_congr 512 uplo n t t' h,
      fun k hk => henorm_one_col_congr uplo n t t' k hk h,
      henorm_fro_kernel_congr 512 uplo n t t' h⟩
  · intro r0 c0 hr hc hst ht _
    exact ⟨henorm_max_kernel_nan 512 (by omega) uplo n t r0 c0 hr hc hst ht,
      henorm_fro_kernel_nan uplo n t r0 c0 hr hc hst ht⟩

/-- Witness for C4: a mirrored-triangle rewrite leaves the outputs
unchanged, and a single NaN in the declared triangle makes the max and
Frobenius results NaN. -/
theorem c4_henorm_triangle_nan_witness :
    (henorm_max_kernel 512 Uplo.Lower 2 wT1 = henorm_max_kernel 512 Uplo.Lower 2 wT2
      ∧ (∀ k, k < 2 → henorm_one_col Uplo.Lower 2 wT1 k = henorm_one_col Uplo.Lower 2 wT2 k)
      ∧ henorm_fro_kernel 512 Uplo.Lower 2 wT1 = henorm_fro_kernel 512 Uplo.Lower 2 wT2)
    ∧ (henorm_max_kernel 512 Uplo.Lower 2 wTN = none
      ∧ henorm_fro_kernel 512 Uplo.Lower 2 wTN = (none, none)) :=
  ⟨(c4_henorm_triangle_nan Uplo.Lower 2 (by norm_num) wT1 wT2).1
      (by
        intro r c hr hc hst
        rw [stored_lower] at hst
        simp [wT1, wT2, show ¬ r < c by omega]),
    (c4_henorm_triangle_nan Uplo.Lower 2 (by norm_num) wTN wTN).2 1 0
      (by norm_num) (by norm_num) (by decide) (by decide)
      (by
        intro r c hr hc hst hne
        have hne' : ¬(r = 1 ∧ c = 0) := by
          rintro ⟨rfl, rfl⟩
          exact hne rfl
        simp [wTN, hne'])⟩


/-! Scaled sum-of-squares value lemmas (Frobenius contract). -/

theorem combine_val (s1 q1 s2 q2 : ℚ) (h1 : 0 ≤ s1) (h2 : 0 ≤ s2) :
    ∃ s q, combine_sumsq (some s1, some q1) (some s2, some q2) = (some s, some q)
      ∧ 0 ≤ s ∧ s ^ 2 * q = s1 ^ 2 * q1 + s2 ^ 2 * q2 := by
  by_cases hlt : s1 < s2
  · have hne : s2 ≠ 0 := (lt_of_le_of_lt h1 hlt).ne'
    refine ⟨s2, q1 * (s1 / s2 * (s1 / s2)) + q2, ?_, h2, ?_⟩
    · simp [combine_sumsq, hlt, rdiv, rsq, rmul, radd, hne]
    · field_simp
      ring
  · by_cases hlt2 : s2 < s1
    · have hne : s1 ≠ 0 := (lt_of_le_of_lt h2 hlt2).ne'
      refine ⟨s1, q1 + q2 * (s2 / s1 * (s2 / s1)), ?_, h1, ?_⟩
      · simp [combine_sumsq, hlt, hlt2, rdiv, rsq, rmul, radd, hne]
      · field_simp
        ring
    · have heq : s1 = s2 := le_antisymm (not_lt.mp hlt2) (not_lt.mp hlt)
      refine ⟨s1, q1 + q2, ?_, h1, ?_⟩
      · simp [combine_sumsq, hlt, hlt2, radd]
      · rw [heq]
        ring

theorem add_val (s1 q1 x : ℚ) (h1 : 0 ≤ s1) (hx : 0 ≤ x) :
    ∃ s q, add_sumsq (some s1, some q1) (some x) = (some s, some q)
      ∧ 0 ≤ s ∧ s ^ 2 * q = s1 ^ 2 * q1 + x ^ 2 := by
  obtain ⟨s, q, he, hs, hv⟩ := combine_val s1 q1 x 1 h1 hx
  exact ⟨s, q, he, hs, by rw [hv]; ring⟩

theorem foldl_add_val (l : List ℕ) (gv : ℕ → ℚ) (hg : ∀ j ∈ l, 0 ≤ gv j) :
    ∀ s0 q0 : ℚ, 0 ≤ s0 →
    ∃ s q, l.foldl (fun p j => add_sumsq p (some (gv j))) (some s0, some q0)
        = (some s, some q)
      ∧ 0 ≤ s ∧ s ^ 2 * q = s0 ^ 2 * q0 + ((l.map (fun j => gv j ^ 2)).sum) := by
  induction l with
  | nil =>
    intro s0 q0 h0
    exact ⟨s0, q0, rfl, h0, by simp⟩
  | cons a t ih =>
    intro s0 q0 h0
    obtain ⟨s1, q1, he1, hs1, hv1⟩ :=
      add_val s0 q0 (gv a) h0 (hg a (List.mem_cons_self a t))
    obtain ⟨s, q, he, hs, hv⟩ :=
      ih (fun j hj => hg j (List.mem_cons_of_mem _ hj)) s1 q1 hs1
    refine ⟨s, q, ?_, hs, ?_⟩
    · rw [List.foldl_cons, he1]
      exact he
    · rw [hv, hv1]
      simp only [List.map_cons, List.sum_cons]
      ring

theorem foldl_combine_val (l : List ℕ) (f : ℕ → RExt × RExt) (w : ℕ → ℚ)
    (hf : ∀ i ∈ l, ∃ s q, f i = (some s, some q) ∧ 0 ≤ s ∧ s ^ 2 * q = w i) :
    ∀ s0 q0 : ℚ, 0 ≤ s0 →
    ∃ s q, l.foldl (fun p i => combine_sumsq p (f i)) (some s0, some q0)
        = (some s, some q)
      ∧ 0 ≤ s ∧ s ^ 2 * q = s0 ^ 2 * q0 + ((l.map w).sum) := by
  induction l with
  | nil =>
    intro s0 q0 h0
    exact ⟨s0, q0, rfl, h0, by simp⟩
  | cons a t ih =>
    intro s0 q0 h0
    obtain ⟨sa, qa, hea, hsa, hva⟩ := hf a (List.mem_cons_self a t)
    obtain ⟨s1, q1, he1, hs1, hv1⟩ := combine_val s0 q0 sa qa h0 hsa
    obtain ⟨s, q, he, hs, hv⟩ :=
      ih (fun i hi => hf i (List.mem_cons_of_mem _ hi)) s1 q1 hs1
    refine ⟨s, q, ?_, hs, ?_⟩
    · rw [List.foldl_cons, hea, he1]
      exact he
    · rw [hv, hv1, hva]
      simp only [List.map_cons, List.sum_cons]
      ring

theorem list_sum_range (k : ℕ) (f : ℕ → ℚ) :
    ((List.range k).map f).sum = ∑ i in Finset.range k, f i := by
  rw [← List.sum_toFinset _ (List.nodup_range k),
    show (List.range k).toFinset = Finset.range k by ext x; simp]

theorem list_sum_chunkRows (bdim n c : ℕ) (w : ℕ → ℚ) :
    ((chunkRows bdim n c).map w).sum
      = ∑ i in (Finset.range n).filter (fun i => i % bdim = c), w i := by
  unfold chunkRows
  rw [← List.sum_toFinset _ ((List.nodup_range n).filter _), List.toFinset_filter,
    show (List.range n).toFinset = Finset.range n by ext x; simp]
  apply Finset.sum_congr
  · ext x
    simp
  · intro x _
    rfl

theorem henorm_fro_row_val (uplo : Uplo) (n : ℕ) (tq : ℕ → ℕ → ℚ) (i : ℕ) :
    ∃ s q, henorm_fro_row uplo n (fun r c => some (tq r c)) i = (some s, some q)
      ∧ 0 ≤ s
      ∧ s ^ 2 * q
        = 2 * (if uplo = Uplo.Lower then ((List.range i).map (fun j => |tq i j| ^ 2)).sum
            else ((List.range' (i + 1) (n - (i + 1))).map (fun j => |tq i j| ^ 2)).sum)
          + |tq i i| ^ 2 := by
  unfold henorm_fro_row fro_double_diag
  cases uplo
  · rw [if_pos rfl, if_pos rfl]
    rw [foldl_congr_g _ _ (fun p j => add_sumsq p (some |tq i j|)) _
      (fun j hj acc => by rfl)]
    obtain ⟨s1, q1, he1, hs1, hv1⟩ :=
      foldl_add_val (List.range i) (fun j => |tq i j|) (fun j _ => abs_nonneg _) 0 1
        le_rfl
    rw [he1]
    obtain ⟨s, q, he, hs, hv⟩ := add_val s1 (q1 * 2) |tq i i| hs1 (abs_nonneg _)
    refine ⟨s, q, ?_, hs, ?_⟩
    · show add_sumsq (some s1, rmul (some q1) (some 2)) (rabs (rre (some (tq i i))))
        = (some s, some q)
      show add_sumsq (some s1, some (q1 * 2)) (some |tq i i|) = (some s, some q)
      exact he
    · rw [hv, show s1 ^ 2 * (q1 * 2) = 2 * (s1 ^ 2 * q1) by ring, hv1]
      ring
  · rw [if_neg (by decide), if_neg (by decide)]
    rw [foldl_congr_g _ _ (fun p j => add_sumsq p (some |tq i j|)) _
      (fun j hj acc => by rfl)]
    obtain ⟨s1, q1, he1, hs1, hv1⟩ :=
      foldl_add_val ((List.range' (i + 1) (n - (i + 1))).reverse) (fun j => |tq i j|)
        (fun j _ => abs_nonneg _) 0 1 le_rfl
    rw [he1]
    obtain ⟨s, q, he, hs, hv⟩ := add_val s1 (q1 * 2) |tq i i| hs1 (abs_nonneg _)
    refine ⟨s, q, ?_, hs, ?_⟩
    · show add_sumsq (some s1, rmul (some q1) (some 2)) (rabs (rre (some (tq i i))))
        = (some s, some q)
      show add_sumsq (some s1, some (q1 * 2)) (some |tq i i|) = (some s, some q)
      exact he
    · rw [hv, show s1 ^ 2 * (q1 * 2) = 2 * (s1 ^ 2 * q1) by ring, hv1,
        List.map_reverse, List.sum_reverse]
      ring

/-- C5: on NaN-free input, the Frobenius kernel's output pair satisfies
`scale² · sumsq = ` the reference Frobenius-norm-squared of the symmetric
tile: the declared strict triangle counted twice plus the squared (real)
diagonal counted once, partial pairs being combined by the scale-rebasing
rule. -/
theorem c5_fro_contract (uplo : Uplo) (n : ℕ) (hn : 1 ≤ n) (tq : ℕ → ℕ → ℚ) :
    ∃ s q, henorm_fro_kernel 512 uplo n (fun r c => some (tq r c)) = (some s, some q)
      ∧ 0 ≤ s ∧ s ^ 2 * q = refFroSq uplo n tq := by
  set t : TileR := fun r c => some (tq r c) with ht
  have rowW : ℕ → ℚ := fun i =>
    2 * (if uplo = Uplo.Lower then ((List.range i).map (fun j => |tq i j| ^ 2)).sum
      else ((List.range' (i + 1) (n - (i + 1))).map (fun j => |tq i j| ^ 2)).sum)
      + |tq i i| ^ 2
  have hchunk : ∀ c, ∃ s q, henorm_fro_chunk 512 uplo n t c = (some s, some q)
      ∧ 0 ≤ s
      ∧ s ^ 2 * q = ((chunkRows 512 n c).map (fun i =>
          2 * (if uplo = Uplo.Lower then ((List.range i).map (fun j => |tq i j| ^ 2)).sum
            else ((List.range' (i + 1) (n - (i + 1))).map (fun j => |tq i j| ^ 2)).sum)
            + |tq i i| ^ 2)).sum := by
    intro c
    unfold henorm_fro_chunk
    obtain ⟨s, q, he, hs, hv⟩ :=
      foldl_combine_val (chunkRows 512 n c) (henorm_fro_row uplo n t)
        (fun i =>
          2 * (if uplo = Uplo.Lower then ((List.range i).map (fun j => |tq i j| ^ 2)).sum
            else ((List.range' (i + 1) (n - (i + 1))).map (fun j => |tq i j| ^ 2)).sum)
            + |tq i i| ^ 2)
        (fun i _ => henorm_fro_row_val uplo n tq i) 0 1 le_rfl
    exact ⟨s, q, he, hs, by rw [hv]; ring⟩
  obtain ⟨s0, q0, he0, hs0, hv0⟩ := hchunk 0
  have hkernel : ∃ s q, henorm_fro_kernel 512 uplo n t = (some s, some q)
      ∧ 0 ≤ s
      ∧ s ^ 2 * q = ((List.range (min 512 n)).map (fun c =>
          ((chunkRows 512 n c).map (fun i =>
            2 * (if uplo = Uplo.Lower then ((List.range i).map (fun j => |tq i j| ^ 2)).sum
              else ((List.range' (i + 1) (n - (i + 1))).map (fun j => |tq i j| ^ 2)).sum)
              + |tq i i| ^ 2)).sum)).sum := by
    unfold henorm_fro_kernel
    rw [he0]
    obtain ⟨s, q, he, hs, hv⟩ :=
      foldl_combine_val (List.range' 1 (min 512 n - 1)) (henorm_fro_chunk 512 uplo n t)
        (fun c =>
          ((chunkRows 512 n c).map (fun i =>
            2 * (if uplo = Uplo.Lower then ((List.range i).map (fun j => |tq i j| ^ 2)).sum
              else ((List.range' (i + 1) (n - (i + 1))).map (fun j => |tq i j| ^ 2)).sum)
              + |tq i i| ^ 2)).sum)
        (fun c _ => hchunk c) s0 q0 hs0
    refine ⟨s, q, he, hs, ?_⟩
    rw [hv, hv0]
    have hmin : 1 ≤ min 512 n := by omega
    rw [show List.range (min 512 n) = 0 :: List.range' 1 (min 512 n - 1) by
      rw [List.range_eq_range']
      cases hmm : min 512 n with
      | zero => omega
      | succ k => rfl]
    simp [List.map_cons, List.sum_cons]
  obtain ⟨s, q, he, hs, hv⟩ := hkernel
  refine ⟨s, q, he, hs, ?_⟩
  rw [hv]
  have hregroup : ((List.range (min 512 n)).map (fun c =>
        ((chunkRows 512 n c).map (fun i =>
          2 * (if uplo = Uplo.Lower then ((List.range i).map (fun j => |tq i j| ^ 2)).sum
            else ((List.range' (i + 1) (n - (i + 1))).map (fun j => |tq i j| ^ 2)).sum)
            + |tq i i| ^ 2)).sum)).sum
      = ∑ i in Finset.range n,
          (2 * (if uplo = Uplo.Lower then ((List.range i).map (fun j => |tq i j| ^ 2)).sum
            else ((List.range' (i + 1) (n - (i + 1))).map (fun j => |tq i j| ^ 2)).sum)
            + |tq i i| ^ 2) := by
    rw [list_sum_range]
    have hstep : ∀ c ∈ Finset.range (min 512 n),
        ((chunkRows 512 n c).map (fun i =>
          2 * (if uplo = Uplo.Lower then ((List.range i).map (fun j => |tq i j| ^ 2)).sum
            else ((List.range' (i + 1) (n - (i + 1))).map (fun j => |tq i j| ^ 2)).sum)
            + |tq i i| ^ 2)).sum
        = ∑ i in (Finset.range n).filter (fun i => i % 512 = c),
            (2 * (if uplo = Uplo.Lower then ((List.range i).map (fun j => |tq i j| ^ 2)).sum
              else ((List.range' (i + 1) (n - (i + 1))).map (fun j => |tq i j| ^ 2)).sum)
              + |tq i i| ^ 2) := by
      intro c _
      exact list_sum_chunkRows 512 n c _
    rw [Finset.sum_congr rfl hstep]
    exact Finset.sum_fiberwise_of_maps_to
      (fun i hi => by
        rw [Finset.mem_range] at hi ⊢
        have h1 : i % 512 < 512 := Nat.mod_lt _ (by omega)
        have h2 : i % 512 ≤ i := Nat.mod_le _ _
        omega)
      _
  rw [hregroup]
  unfold refFroSq
  cases uplo
  · have hterm : ∀ i ∈ Finset.range n,
        (2 * (if (Uplo.Lower : Uplo) = Uplo.Lower
            then ((List.range i).map (fun j => |tq i j| ^ 2)).sum
            else ((List.range' (i + 1) (n - (i + 1))).map (fun j => |tq i j| ^ 2)).sum)
          + |tq i i| ^ 2)
          = (2 * ∑ j in Finset.range i, |tq i j| ^ 2 + |tq i i| ^ 2) := by
      intro i _
      rw [if_pos rfl, list_sum_range]
    rw [Finset.sum_congr rfl hterm, Finset.sum_add_distrib, ← Finset.mul_sum]
  · have hterm : ∀ i ∈ Finset.range n,
        (2 * (if (Uplo.Upper : Uplo) = Uplo.Lower
            then ((List.range i).map (fun j => |tq i j| ^ 2)).sum
            else ((List.range' (i + 1) (n - (i + 1))).map (fun j => |tq i j| ^ 2)).sum)
          + |tq i i| ^ 2)
          = (2 * ∑ c in Finset.range (n - (i + 1)), |tq i (i + 1 + c)| ^ 2
            + |tq i i| ^ 2) := by
      intro i _
      rw [if_neg (by decide : ¬ (Uplo.Upper : Uplo) = Uplo.Lower),
        List.range'_eq_map_range, List.map_map, list_sum_range]
      rfl
    rw [Finset.sum_congr rfl hterm, Finset.sum_add_distrib, ← Finset.mul_sum]

/-- Witness for C5 at a concrete NaN-free tile. -/
theorem c5_fro_contract_witness :
    1 ≤ 2 ∧ ∃ s q, henorm_fro_kernel 512 Uplo.Lower 2 (fun r c => some (wQ r c))
        = (some s, some q)
      ∧ 0 ≤ s ∧ s ^ 2 * q = refFroSq Uplo.Lower 2 wQ :=
  ⟨by norm_num, c5_fro_contract Uplo.Lower 2 (by norm_num) wQ⟩


/-! Per-tile extraction for the rank-2k realizations. -/

theorem physPos_inj (inp : SyInp) (i j i' j' : ℕ) :
    physPos inp i j = physPos inp i' j' ↔ i = i' ∧ j = j' := by
  unfold physPos
  split_ifs <;> simp [Prod.ext_iff] <;> tauto

theorem Cl_physPos (inp : SyInp) (s : CState) (i j : ℕ) :
    Cl inp s i j = clv inp (s (physPos inp i j).1 (physPos inp i j).2) := by
  unfold Cl clv physPos
  split_ifs <;> rfl

theorem trT_trT (t : TileQ) : trT (trT t) = t := rfl

theorem clv_onPhys (inp : SyInp) (f : TileQ → TileQ) (t : TileQ) :
    clv inp (onPhys inp f t) = f (clv inp t) := by
  unfold clv onPhys
  split_ifs
  · rfl
  · rw [trT_trT]

theorem items_filter_gen (inp : SyInp) (L : List (ℕ × ℕ)) (mk : ℕ × ℕ → Item)
    (hmk : ∀ p, (mk p).1 = physPos inp p.1 p.2) (i j : ℕ) :
    ((L.map mk).filter (fun it => it.1 = physPos inp i j))
      = (L.filter (fun p => p = (i, j))).map mk := by
  rw [filter_map_comm]
  congr 1
  apply List.filter_congr
  intro p _
  simp only [decide_eq_decide, hmk p]
  rw [physPos_inj]
  constructor
  · intro h
    exact Prod.ext h.1 h.2
  · intro h
    exact ⟨by rw [h], by rw [h]⟩

theorem items_filter_gen_diag (inp : SyInp) (L : List ℕ) (mk : ℕ → Item)
    (hmk : ∀ a, (mk a).1 = physPos inp a a) (i j : ℕ) :
    ((L.map mk).filter (fun it => it.1 = physPos inp i j))
      = (L.filter (fun a => a = i ∧ a = j)).map mk := by
  rw [filter_map_comm]
  congr 1
  apply List.filter_congr
  intro a _
  simp only [decide_eq_decide, hmk a]
  rw [physPos_inj]

theorem filter_and_of_ne (L : List ℕ) (i j : ℕ) (hij : i ≠ j) :
    L.filter (fun a => a = i ∧ a = j) = [] := by
  rw [List.filter_eq_nil_iff]
  intro a _
  simp only [decide_eq_true_eq, not_and]
  intro h1 h2
  exact hij (h1 ▸ h2 ▸ rfl)

theorem filter_and_of_eq (L : List ℕ) (i : ℕ) :
    L.filter (fun a => a = i ∧ a = i) = L.filter (fun a => a = i) := by
  apply List.filter_congr
  intro a _
  simp


theorem flatMap_concentrate (l : List ℕ) (hl : l.Nodup) (f : ℕ → List Item) (a0 : ℕ)
    (ha : a0 ∈ l) (h0 : ∀ a ∈ l, a ≠ a0 → f a = []) :
    l.flatMap f = f a0 := by
  induction l with
  | nil => cases ha
  | cons b t ih =>
    rw [List.flatMap_cons]
    rcases List.mem_cons.mp ha with rfl | hm
    · have htail : t.flatMap f = [] := by
        rw [List.flatMap_eq_nil_iff]
        intro a hat
        exact h0 a (List.mem_cons_of_mem _ hat)
          (fun hc => (List.nodup_cons.mp hl).1 (hc ▸ hat))
      rw [htail, List.append_nil]
    · rw [h0 b (List.mem_cons_self b t)
        (fun hc => (List.nodup_cons.mp hl).1 (hc ▸ hm)), List.nil_append]
      exact ih (List.nodup_cons.mp hl).2 hm
        (fun a hat hne => h0 a (List.mem_cons_of_mem _ hat) hne)

/-- HostTask final value of a locally-owned lower tile: exactly its own
unit's update applied to the initial tile. -/
theorem hostTask_Cl (inp : SyInp) (i j : ℕ) (hji : j ≤ i) (him : i < inp.mt)
    (hloc : inp.isLocal i j = true) :
    Cl inp (hostTaskState inp) i j
      = (if i = j then hostDiagUpd inp i else hostOffUpd inp i j)
          (Cl inp inp.Cph i j) := by
  rw [Cl_physPos, Cl_physPos]
  unfold hostTaskState
  rw [applyItems_at _ _ (physPos inp i j), hostTaskItems,
    items_filter_gen inp _ (hostLowerItem inp) (fun p => rfl) i j]
  have hcnt : ((lowerIdx inp.mt).filter (isLoc inp)).count (i, j) = 1 := by
    rw [count_filter_ite, count_lowerIdx]
    rw [show isLoc inp (i, j) = true from hloc, if_pos rfl, if_pos ⟨hji, him⟩]
  rw [filter_eq_replicate_count, hcnt]
  show clv inp ((hostLowerItem inp (i, j)).2
    (inp.Cph (physPos inp i j).1 (physPos inp i j).2)) = _
  show clv inp (onPhys inp (if i = j then hostDiagUpd inp i else hostOffUpd inp i j)
    (inp.Cph (physPos inp i j).1 (physPos inp i j).2)) = _
  rw [clv_onPhys]

/-- HostNest final value of a locally-owned lower tile: the same update as
HostTask. -/
theorem hostNest_Cl (inp : SyInp) (i j : ℕ) (hji : j ≤ i) (him : i < inp.mt)
    (hloc : inp.isLocal i j = true) :
    Cl inp (hostNestState inp) i j
      = (if i = j then hostDiagUpd inp i else hostOffUpd inp i j)
          (Cl inp inp.Cph i j) := by
  rw [Cl_physPos, Cl_physPos]
  unfold hostNestState
  rw [applyItems_at _ _ (physPos inp i j), hostNestItems, List.filter_append,
    items_filter_gen_diag inp _ (hostDiagItem inp) (fun a => rfl) i j,
    items_filter_gen inp _
      (fun p => (physPos inp p.1 p.2, onPhys inp (hostOffUpd inp p.1 p.2)))
      (fun p => rfl) i j]
  by_cases hij : i = j
  · subst hij
    rw [if_pos rfl, filter_and_of_eq]
    have hdg : ((List.range inp.mt).filter (fun a => inp.isLocal a a)).filter
        (fun a => a = i) = [i] := by
      rw [filter_eq_replicate_count,
        show ((List.range inp.mt).filter (fun a => inp.isLocal a a)).count i = 1 from by
          rw [count_filter_ite, hloc, if_pos rfl]
          exact count_eq_one_of_nodup_mem (List.nodup_range _) (List.mem_range.mpr him)]
      rfl
    have hoff : ((nestOffIdx inp.mt).filter (isLoc inp)).filter
        (fun p => p = (i, i)) = [] := by
      rw [filter_eq_replicate_count,
        show ((nestOffIdx inp.mt).filter (isLoc inp)).count (i, i) = 0 from by
          rw [count_filter_ite, count_nestOffIdx]
          split_ifs with h1 h2 <;> first | rfl | omega]
      rfl
    rw [hdg, hoff]
    show clv inp ((hostDiagItem inp i).2
      (inp.Cph (physPos inp i i).1 (physPos inp i i).2)) = _
    show clv inp (onPhys inp (hostDiagUpd inp i)
      (inp.Cph (physPos inp i i).1 (physPos inp i i).2)) = _
    rw [clv_onPhys]
  · rw [if_neg hij, filter_and_of_ne _ _ _ hij]
    have hoff : ((nestOffIdx inp.mt).filter (isLoc inp)).filter
        (fun p => p = (i, j)) = [(i, j)] := by
      rw [filter_eq_replicate_count,
        show ((nestOffIdx inp.mt).filter (isLoc inp)).count (i, j) = 1 from by
          rw [count_filter_ite, count_nestOffIdx]
          rw [show isLoc inp (i, j) = true from hloc, if_pos rfl,
            if_pos ⟨by omega, him⟩]]
      rfl
    rw [hoff]
    show clv inp (onPhys inp (hostOffUpd inp i j)
      (inp.Cph (physPos inp i j).1 (physPos inp i j).2)) = _
    rw [clv_onPhys]

/-- HostBatch final value of a locally-owned lower tile: the diagonal task
update, or the two batched gemm entries applied in order. -/
theorem hostBatch_Cl (inp : SyInp) (i j : ℕ) (hji : j ≤ i) (him : i < inp.mt)
    (hloc : inp.isLocal i j = true) :
    Cl inp (hostBatchState inp) i j
      = if i = j then hostDiagUpd inp i (Cl inp inp.Cph i j)
        else clv inp (gemmUpd2 inp (inp.nb i) (inp.nb j) i j
            (gemmUpd1 inp (inp.nb i) (inp.nb j) i j
              (inp.Cph (physPos inp i j).1 (physPos inp i j).2))) := by
  rw [Cl_physPos, Cl_physPos]
  unfold hostBatchState
  rw [applyItems_at _ _ (physPos inp i j), hostBatchItems, List.filter_append,
    List.filter_append,
    items_filter_gen_diag inp _ (hostDiagItem inp) (fun a => rfl) i j,
    items_filter_gen inp _
      (fun p => (physPos inp p.1 p.2, gemmUpd1 inp (inp.nb p.1) (inp.nb p.2) p.1 p.2))
      (fun p => rfl) i j,
    items_filter_gen inp _
      (fun p => (physPos inp p.1 p.2, gemmUpd2 inp (inp.nb p.1) (inp.nb p.2) p.1 p.2))
      (fun p => rfl) i j]
  by_cases hij : i = j
  · subst hij
    rw [if_pos rfl, filter_and_of_eq]
    have hdg : ((List.range inp.mt).filter (fun a => inp.isLocal a a)).filter
        (fun a => a = i) = [i] := by
      rw [filter_eq_replicate_count,
        show ((List.range inp.mt).filter (fun a => inp.isLocal a a)).count i = 1 from by
          rw [count_filter_ite, hloc, if_pos rfl]
          exact count_eq_one_of_nodup_mem (List.nodup_range _) (List.mem_range.mpr him)]
      rfl
    have hsl : ((strictLowerIdx inp.mt).filter (isLoc inp)).filter
        (fun p => p = (i, i)) = [] := by
      rw [filter_eq_replicate_count,
        show ((strictLowerIdx inp.mt).filter (isLoc inp)).count (i, i) = 0 from by
          rw [count_filter_ite, count_strictLowerIdx]
          split_ifs with h1 h2 <;> first | rfl | omega]
      rfl
    rw [hdg, hsl]
    show clv inp (onPhys inp (hostDiagUpd inp i)
      (inp.Cph (physPos inp i i).1 (physPos inp i i).2)) = _
    rw [clv_onPhys]
  · rw [if_neg hij, filter_and_of_ne _ _ _ hij]
    have hsl : ((strictLowerIdx inp.mt).filter (isLoc inp)).filter
        (fun p => p = (i, j)) = [(i, j)] := by
      rw [filter_eq_replicate_count,
        show ((strictLowerIdx inp.mt).filter (isLoc inp)).count (i, j) = 1 from by
          rw [count_filter_ite, count_strictLowerIdx]
          rw [show isLoc inp (i, j) = true from hloc, if_pos rfl,
            if_pos ⟨by omega, him⟩]]
      rfl
    rw [hsl]
    rfl


theorem count_range_ite (m i : ℕ) : (List.range m).count i = if i < m then 1 else 0 := by
  by_cases h : i < m
  · rw [if_pos h]
    exact count_eq_one_of_nodup_mem (List.nodup_range m) (List.mem_range.mpr h)
  · rw [if_neg h]
    exact List.count_eq_zero.mpr (fun hm => h (List.mem_range.mp hm))

/-- The writes of one Devices task aimed at stored tile `physPos i j`: the
two gemm group entries (interior or bottom-row shape) for a strictly-lower
tile on this device, the one syr2k group entry (interior-diagonal or
corner shape) for a diagonal tile on this device, nothing otherwise. -/
theorem devItemsAt_filter (inp : SyInp) (h2 : 2 ≤ inp.mt) (d i j : ℕ)
    (hji : j ≤ i) (him : i < inp.mt) :
    (devItemsAt inp d).filter (fun it => it.1 = physPos inp i j)
      = if i = j then
          (if isLocDev inp d (j, j) = true then
            (if j < inp.mt - 1 then [(physPos inp j j, syr2kDevUpd inp (inp.nb 0) j)]
            else [(physPos inp j j, syr2kDevUpd inp (inp.nb (inp.mt - 1)) j)])
          else [])
        else
          (if isLocDev inp d (i, j) = true then
            (if i < inp.mt - 1 then
              [(physPos inp i j, gemmUpd1 inp (inp.nb 0) (inp.nb 0) i j),
                (physPos inp i j, gemmUpd2 inp (inp.nb 0) (inp.nb 0) i j)]
            else
              [(physPos inp i j, gemmUpd1 inp (inp.nb (inp.mt - 1)) (inp.nb 0) i j),
                (physPos inp i j, gemmUpd2 inp (inp.nb (inp.mt - 1)) (inp.nb 0) i j)])
          else []) := by
  unfold devItemsAt
  rw [List.filter_append, List.filter_append, List.filter_append,
    List.filter_append, List.filter_append,
    items_filter_gen inp _
      (fun p => (physPos inp p.1 p.2, gemmUpd1 inp (inp.nb 0) (inp.nb 0) p.1 p.2))
      (fun p => rfl) i j,
    items_filter_gen inp _
      (fun p => (physPos inp p.1 p.2,
        gemmUpd1 inp (inp.nb (inp.mt - 1)) (inp.nb 0) p.1 p.2))
      (fun p => rfl) i j,
    items_filter_gen inp _
      (fun p => (physPos inp p.1 p.2, gemmUpd2 inp (inp.nb 0) (inp.nb 0) p.1 p.2))
      (fun p => rfl) i j,
    items_filter_gen inp _
      (fun p => (physPos inp p.1 p.2,
        gemmUpd2 inp (inp.nb (inp.mt - 1)) (inp.nb 0) p.1 p.2))
      (fun p => rfl) i j,
    items_filter_gen_diag inp _
      (fun a => (physPos inp a a, syr2kDevUpd inp (inp.nb 0) a))
      (fun a => rfl) i j]
  have hint : ((interiorIdx inp.mt).filter (isLocDev inp d)).filter
      (fun p => p = (i, j))
      = if isLocDev inp d (i, j) = true then
          (if j < i ∧ i < inp.mt - 1 then [(i, j)] else []) else [] := by
    rw [filter_eq_replicate_count, count_filter_ite, count_interiorIdx]
    split_ifs <;> rfl
  have hbot : ((bottomIdx inp.mt).filter (isLocDev inp d)).filter
      (fun p => p = (i, j))
      = if isLocDev inp d (i, j) = true then
          (if i = inp.mt - 1 ∧ j < inp.mt - 1 then [(i, j)] else []) else [] := by
    rw [filter_eq_replicate_count, count_filter_ite, count_bottomIdx]
    split_ifs <;> rfl
  rw [hint, hbot]
  have hdg : ((List.range (inp.mt - 1)).filter (fun a => isLocDev inp d (a, a))).filter
      (fun a => a = i)
      = if isLocDev inp d (i, i) = true then
          (if i < inp.mt - 1 then [i] else []) else [] := by
    rw [filter_eq_replicate_count, count_filter_ite, count_range_ite]
    split_ifs <;> rfl
  have hcor : ((if isLocDev inp d (inp.mt - 1, inp.mt - 1) = true then
      [(physPos inp (inp.mt - 1) (inp.mt - 1),
        syr2kDevUpd inp (inp.nb (inp.mt - 1)) (inp.mt - 1))]
    else []).filter (fun it => it.1 = physPos inp i j))
      = if isLocDev inp d (inp.mt - 1, inp.mt - 1) = true
          ∧ i = inp.mt - 1 ∧ j = inp.mt - 1 then
          [(physPos inp (inp.mt - 1) (inp.mt - 1),
            syr2kDevUpd inp (inp.nb (inp.mt - 1)) (inp.mt - 1))]
        else [] := by
    by_cases hA : isLocDev inp d (inp.mt - 1, inp.mt - 1) = true
    · rw [if_pos hA]
      by_cases hB : i = inp.mt - 1 ∧ j = inp.mt - 1
      · rw [if_pos ⟨hA, hB⟩]
        have hpp : physPos inp (inp.mt - 1) (inp.mt - 1) = physPos inp i j :=
          (physPos_inj ..).mpr ⟨hB.1.symm, hB.2.symm⟩
        simp [List.filter_cons, hpp]
      · rw [if_neg (fun hC => hB hC.2)]
        have hpp : ¬ physPos inp (inp.mt - 1) (inp.mt - 1) = physPos inp i j := by
          rw [physPos_inj]
          intro hC
          exact hB ⟨hC.1.symm, hC.2.symm⟩
        simp [List.filter_cons, hpp]
    · rw [if_neg hA, if_neg (fun hC => hA hC.1)]
      rfl
  rw [hcor]
  by_cases hij : i = j
  · subst hij
    rw [if_pos rfl, filter_and_of_eq, hdg]
    have hc1 : ¬(i < i ∧ i < inp.mt - 1) := by omega
    have hc2 : ¬(i = inp.mt - 1 ∧ i < inp.mt - 1) := by omega
    simp only [hc1, hc2, if_false, ite_self, List.map_nil, List.nil_append]
    by_cases hL : isLocDev inp d (i, i) = true
    · simp only [if_pos hL]
      by_cases hi : i < inp.mt - 1
      · have hcc : ¬(isLocDev inp d (inp.mt - 1, inp.mt - 1) = true
            ∧ i = inp.mt - 1 ∧ i = inp.mt - 1) := by
          rintro ⟨-, hc, -⟩
          omega
        simp only [if_pos hi, if_neg hcc]
        rfl
      · have hi' : i = inp.mt - 1 := by omega
        have hcc : isLocDev inp d (inp.mt - 1, inp.mt - 1) = true
            ∧ i = inp.mt - 1 ∧ i = inp.mt - 1 := ⟨hi' ▸ hL, hi', hi'⟩
        simp only [if_neg hi, if_pos hcc, List.map_nil, List.nil_append]
        rw [hi']
    · have hcc : ¬(isLocDev inp d (inp.mt - 1, inp.mt - 1) = true
          ∧ i = inp.mt - 1 ∧ i = inp.mt - 1) := by
        rintro ⟨hc1', hc2', -⟩
        exact hL (by rw [hc2']; exact hc1')
      simp only [if_neg hL, if_neg hcc]
      simp
  · rw [if_neg hij, filter_and_of_ne _ _ _ hij]
    have hji' : j < i := by omega
    have hcc : ¬(isLocDev inp d (inp.mt - 1, inp.mt - 1) = true
        ∧ i = inp.mt - 1 ∧ j = inp.mt - 1) := by
      rintro ⟨-, hc1', hc2'⟩
      omega
    rw [if_neg hcc]
    by_cases hL : isLocDev inp d (i, j) = true
    · simp only [if_pos hL]
      by_cases hi : i < inp.mt - 1
      · have hb1 : ¬(i = inp.mt - 1 ∧ j < inp.mt - 1) := by omega
        simp only [if_pos hi, if_pos (show j < i ∧ i < inp.mt - 1 from ⟨hji', hi⟩),
          if_neg hb1]
        rfl
      · have hi' : i = inp.mt - 1 := by omega
        have hb1 : i = inp.mt - 1 ∧ j < inp.mt - 1 := ⟨hi', by omega⟩
        have hb2 : ¬(j < i ∧ i < inp.mt - 1) := by omega
        simp only [if_neg hi, if_neg hb2, if_pos hb1]
        rfl
    · simp only [if_neg hL]
      simp

/-- Devices final value of a locally-owned lower tile (multi-tile grid):
the batched syr2k update on the diagonal, the two batched gemm
orientations off the diagonal, with the group-shared extents of the
device task that owns the tile. -/
theorem devices_Cl (inp : SyInp) (h2 : 2 ≤ inp.mt) (hwf : devWF inp) (i j : ℕ)
    (hji : j ≤ i) (him : i < inp.mt) (hloc : inp.isLocal i j = true) :
    Cl inp (devicesState inp) i j
      = if i = j then
          clv inp (syr2kDevUpd inp
            (inp.nb (if j < inp.mt - 1 then 0 else inp.mt - 1)) j
            (inp.Cph (physPos inp i j).1 (physPos inp i j).2))
        else
          clv inp (gemmUpd2 inp
              (inp.nb (if i < inp.mt - 1 then 0 else inp.mt - 1)) (inp.nb 0) i j
            (gemmUpd1 inp
              (inp.nb (if i < inp.mt - 1 then 0 else inp.mt - 1)) (inp.nb 0) i j
              (inp.Cph (physPos inp i j).1 (physPos inp i j).2))) := by
  rw [Cl_physPos]
  unfold devicesState devItems
  rw [if_neg (by omega), applyItems_at _ _ (physPos inp i j), filter_flatMap_comm,
    flatMap_concentrate (List.range inp.num_devices) (List.nodup_range _) _
      (inp.tileDevice i j) (List.mem_range.mpr (hwf i j))
      (by
        intro d hd hne
        rw [devItemsAt_filter inp h2 d i j hji him]
        have hfd : ∀ a b, inp.tileDevice i j = inp.tileDevice a b →
            isLocDev inp d (a, b) = false := by
          intro a b hab
          simp only [isLocDev, Bool.and_eq_false_iff, decide_eq_false_iff_not]
          right
          intro hc
          exact hne (by omega)
        by_cases hij : i = j
        · rw [if_pos hij, hfd j j (by rw [hij]), if_neg (by simp)]
        · rw [if_neg hij, hfd i j rfl, if_neg (by simp)]),
    devItemsAt_filter inp h2 (inp.tileDevice i j) i j hji him]
  by_cases hij : i = j
  · subst hij
    rw [if_pos rfl, if_pos rfl]
    have hld : isLocDev inp (inp.tileDevice i i) (i, i) = true := by
      simp [isLocDev, hloc]
    rw [if_pos hld]
    by_cases hi : i < inp.mt - 1
    · rw [if_pos hi, if_pos hi]
      rfl
    · have hi' : i = inp.mt - 1 := by omega
      rw [if_neg hi, if_neg hi]
      show clv inp (syr2kDevUpd inp (inp.nb (inp.mt - 1)) i
        (inp.Cph (physPos inp i i).1 (physPos inp i i).2)) = _
      rw [hi']
  · rw [if_neg hij, if_neg hij]
    have hld : isLocDev inp (inp.tileDevice i j) (i, j) = true := by
      simp [isLocDev, hloc]
    rw [if_pos hld]
    by_cases hi : i < inp.mt - 1
    · rw [if_pos hi, if_pos hi]
      rfl
    · have hi' : i = inp.mt - 1 := by omega
      rw [if_neg hi, if_neg hi]
      show clv inp (gemmUpd2 inp (inp.nb (inp.mt - 1)) (inp.nb 0) i j
        (gemmUpd1 inp (inp.nb (inp.mt - 1)) (inp.nb 0) i j
          (inp.Cph (physPos inp i j).1 (physPos inp i j).2))) = _
      rw [hi']

/-- Devices final value of the single tile in the `1 x 1` short-cut. -/
theorem devices_single_Cl (inp : SyInp) (h1 : inp.mt = 1)
    (hloc : inp.isLocal 0 0 = true) :
    Cl inp (devicesState inp) 0 0
      = clv inp (syr2kSingleUpd inp
          (inp.Cph (physPos inp 0 0).1 (physPos inp 0 0).2)) := by
  rw [Cl_physPos]
  unfold devicesState devItems
  rw [if_pos h1, if_pos hloc, applyItems_at _ _ (physPos inp 0 0)]
  simp [List.filter_cons]

/-! Value algebra: mapping each realization's composed tile update to the
reference computation under the dispatch guard. -/

/-- The guard forces `A.op() == B.op()`. -/
theorem pre_opB_eq (inp : SyInp) (h : syr2kPre inp = true) : inp.opB = inp.opA := by
  have hg : ∀ (b : Bool) (oa ob oc : Op) (u : Uplo),
      syr2kGuard b oa ob oc u = true → ob = oa := by decide
  exact hg _ _ _ _ _ h

/-- The guard links the stored triangle of `C` to its transpose tag: the
lower triangle is stored exactly when `C.op() == NoTrans`. -/
theorem pre_uplo_iff (inp : SyInp) (h : syr2kPre inp = true) :
    inp.uploC = Uplo.Lower ↔ inp.opC = Op.NoTrans := by
  have hg : ∀ (b : Bool) (oa ob oc : Op) (u : Uplo),
      syr2kGuard b oa ob oc u = true → (u = Uplo.Lower ↔ oc = Op.NoTrans) := by
    decide
  exact hg _ _ _ _ _ h

/-- An off-diagonal host unit produces the reference value on its extent. -/
theorem hostOffUpd_val (inp : SyInp) (i j r cc : ℕ) (hr : r < inp.nb i)
    (hc : cc < inp.nb j) :
    hostOffUpd inp i j (Cl inp inp.Cph i j) r cc = refC inp i j r cc := by
  simp only [hostOffUpd, hostGemm2, hostGemm1, refC]
  rw [if_pos ⟨hr, hc⟩, if_pos ⟨hr, hc⟩]
  ring

/-- A diagonal host unit produces the reference value on its stored
(logically lower) triangle. -/
theorem hostDiagUpd_val (inp : SyInp) (j r cc : ℕ) (hr : r < inp.nb j)
    (hc : cc < inp.nb j) (hcr : cc ≤ r) :
    hostDiagUpd inp j (Cl inp inp.Cph j j) r cc = refC inp j j r cc := by
  simp only [hostDiagUpd, refC]
  rw [if_pos ⟨hr, hc, hcr⟩]
  ring

/-- `opA` normalization under `C.op() == NoTrans`: the identity. -/
theorem opAeffD_NT (inp : SyInp) (h : inp.opC = Op.NoTrans) :
    opAeffD inp = inp.opA := by
  simp [opAeffD, opAeffE, h]

/-- `opA` normalization of a non-transposed `A` against a transposed `C`. -/
theorem opAeffD_T_NT (inp : SyInp) (hopC : ¬ inp.opC = Op.NoTrans)
    (hA : inp.opA = Op.NoTrans) : opAeffD inp = inp.opC := by
  simp [opAeffD, opAeffE, hopC, hA]

/-- `opA` normalization when both `A` and `C` are transposed (the default
also covers the throwing branch, which the guard rules out). -/
theorem opAeffD_T_T (inp : SyInp) (hopC : ¬ inp.opC = Op.NoTrans)
    (hA : ¬ inp.opA = Op.NoTrans) : opAeffD inp = Op.NoTrans := by
  unfold opAeffD opAeffE
  rw [if_neg hopC, if_neg hA]
  split_ifs <;> rfl

/-- `Trans` and `ConjTrans` act alike on real tiles. -/
theorem applyOp_TC : applyOp Op.ConjTrans = applyOp Op.Trans := by
  funext t r c
  rfl

/-- Applying the complementary operator with swapped indices is applying
the operator itself. -/
theorem applyOp_flip (o : Op) (y : TileQ) (t cc : ℕ) :
    applyOp (if o = Op.NoTrans then Op.Trans else Op.NoTrans) y t cc
      = applyOp o y cc t := by
  cases o <;> rfl

/-- On real tiles the post-swap operator of the batch realizations acts
like `A`'s own operator. -/
theorem applyOp_opBeff (inp : SyInp) (hopC : ¬ inp.opC = Op.NoTrans) :
    applyOp (opBeff inp) = applyOp inp.opA := by
  by_cases hA : inp.opA = Op.NoTrans
  · rw [show opBeff inp = Op.NoTrans from by
      unfold opBeff
      rw [opAeffD_T_NT inp hopC hA, if_neg hopC], hA]
  · rw [show opBeff inp = Op.Trans from by
      unfold opBeff
      rw [opAeffD_T_T inp hopC hA, if_pos rfl]]
    cases hA2 : inp.opA with
    | NoTrans => exact absurd hA2 hA
    | Trans => rfl
    | ConjTrans => exact applyOp_TC.symm

/-- One entry of a non-swapped batched gemm: the `op(X)·op(Y)ᵗ` entry on
logical values. -/
theorem gemmEntry_NT (inp : SyInp) (hopC : inp.opC = Op.NoTrans)
    (k : ℕ) (x y : TileQ) (r cc : ℕ) :
    gemmEntry (opAeffD inp) (opBeff inp) k x y r cc
      = dotRR (applyOp inp.opA x) (applyOp inp.opA y) k r cc := by
  unfold gemmEntry dotRR
  apply Finset.sum_congr rfl
  intro t _
  rw [show applyOp (opBeff inp) y t cc = applyOp (opAeffD inp) y cc t from
    applyOp_flip (opAeffD inp) y t cc, opAeffD_NT inp hopC]

/-- One entry of a swapped batched gemm, read through the transpose: again
the `op(X)·op(Y)ᵗ` entry on logical values. -/
theorem gemmEntry_T (inp : SyInp) (hopC : ¬ inp.opC = Op.NoTrans)
    (k : ℕ) (x y : TileQ) (r cc : ℕ) :
    gemmEntry (opBeff inp) (opAeffD inp) k y x cc r
      = dotRR (applyOp inp.opA x) (applyOp inp.opA y) k r cc := by
  unfold gemmEntry dotRR
  apply Finset.sum_congr rfl
  intro t _
  rw [show applyOp (opAeffD inp) x t r = applyOp (opBeff inp) x r t from
    (applyOp_flip (opAeffD inp) x r t).symm, applyOp_opBeff inp hopC]
  exact mul_comm _ _

/-- The two batched-gemm orientations applied to a stored off-diagonal tile
produce the reference value on their extent (in either swap orientation). -/
theorem batchPair_val (inp : SyInp) (hAB : inp.opB = inp.opA)
    (hUL : inp.uploC = Uplo.Lower ↔ inp.opC = Op.NoTrans)
    (m n i j r cc : ℕ) (hr : r < m) (hc : cc < n) :
    clv inp (gemmUpd2 inp m n i j (gemmUpd1 inp m n i j
        (inp.Cph (physPos inp i j).1 (physPos inp i j).2))) r cc
      = refC inp i j r cc := by
  unfold refC Al Bl
  rw [hAB]
  by_cases hopC : inp.opC = Op.NoTrans
  · have hu : inp.uploC = Uplo.Lower := hUL.mpr hopC
    simp only [clv, physPos, Cl, gemmUpd1, gemmUpd2, hu, hopC, eq_self_iff_true,
      if_true]
    simp only [batchGemmUpd]
    rw [if_pos ⟨hr, hc⟩, if_pos ⟨hr, hc⟩, gemmEntry_NT inp hopC,
      gemmEntry_NT inp hopC]
    ring
  · have hne : ¬ inp.uploC = Uplo.Lower := fun hcon => hopC (hUL.mp hcon)
    simp only [clv, physPos, Cl, gemmUpd1, gemmUpd2, if_neg hne, if_neg hopC, trT]
    simp only [batchGemmUpd]
    rw [if_pos ⟨hc, hr⟩, if_pos ⟨hc, hr⟩, gemmEntry_T inp hopC,
      gemmEntry_T inp hopC]
    ring

/-- The Devices batched syr2k operator acts like `A`'s own operator on real
tiles. -/
theorem applyOp_opSyrDev (inp : SyInp) : applyOp (opSyrDev inp) = applyOp inp.opA := by
  by_cases hopC : inp.opC = Op.NoTrans
  · rw [show opSyrDev inp = opAeffD inp from by unfold opSyrDev; rw [if_pos hopC],
      opAeffD_NT inp hopC]
  · rw [show opSyrDev inp = opBeff inp from by unfold opSyrDev; rw [if_neg hopC]]
    exact applyOp_opBeff inp hopC

/-- The Devices batched syr2k applied to a stored diagonal tile produces the
reference value on the stored (logically lower) triangle of its extent. -/
theorem syr2kDev_val (inp : SyInp) (hAB : inp.opB = inp.opA)
    (hUL : inp.uploC = Uplo.Lower ↔ inp.opC = Op.NoTrans)
    (n j r cc : ℕ) (hr : r < n) (hc : cc < n) (hcr : cc ≤ r) :
    clv inp (syr2kDevUpd inp n j
        (inp.Cph (physPos inp j j).1 (physPos inp j j).2)) r cc
      = refC inp j j r cc := by
  unfold refC Al Bl dotRR
  rw [hAB]
  by_cases hopC : inp.opC = Op.NoTrans
  · have hu : inp.uploC = Uplo.Lower := hUL.mpr hopC
    simp only [clv, physPos, Cl, syr2kDevUpd, hu, eq_self_iff_true, if_true]
    simp only [batchSyr2kUpd, stored, applyOp_opSyrDev inp]
    rw [if_pos ⟨hr, hc, hcr⟩, Finset.sum_add_distrib]
    ring
  · have hne : ¬ inp.uploC = Uplo.Lower := fun hcon => hopC (hUL.mp hcon)
    have hu : inp.uploC = Uplo.Upper := by
      cases h : inp.uploC with
      | Lower => exact absurd h hne
      | Upper => rfl
    simp only [clv, physPos, Cl, syr2kDevUpd, if_neg hne, trT]
    simp only [batchSyr2kUpd, hu, stored, applyOp_opSyrDev inp]
    rw [if_pos ⟨hc, hr, hcr⟩, Finset.sum_add_distrib]
    have e1 : (∑ t in Finset.range inp.kb,
        applyOp inp.opA (inp.Aph j) cc t * applyOp inp.opA (inp.Bph j) r t)
        = ∑ t in Finset.range inp.kb,
            applyOp inp.opA (inp.Bph j) r t * applyOp inp.opA (inp.Aph j) cc t :=
      Finset.sum_congr rfl (fun t _ => mul_comm _ _)
    have e2 : (∑ t in Finset.range inp.kb,
        applyOp inp.opA (inp.Bph j) cc t * applyOp inp.opA (inp.Aph j) r t)
        = ∑ t in Finset.range inp.kb,
            applyOp inp.opA (inp.Aph j) r t * applyOp inp.opA (inp.Bph j) cc t :=
      Finset.sum_congr rfl (fun t _ => mul_comm _ _)
    rw [e1, e2]
    ring

/-- The single-tile Devices short-cut produces the reference value on the
stored (logically lower) triangle of the only tile. -/
theorem singleTile_val (inp : SyInp) (hAB : inp.opB = inp.opA)
    (r cc : ℕ) (hr : r < inp.nb 0) (hc : cc < inp.nb 0) (hcr : cc ≤ r) :
    clv inp (syr2kSingleUpd inp
        (inp.Cph (physPos inp 0 0).1 (physPos inp 0 0).2)) r cc
      = refC inp 0 0 r cc := by
  unfold refC Al Bl dotRR
  rw [hAB]
  by_cases hu : inp.uploC = Uplo.Lower
  · simp only [clv, physPos, Cl, syr2kSingleUpd, hu, eq_self_iff_true, if_true]
    simp only [batchSyr2kUpd, stored]
    rw [if_pos ⟨hr, hc, hcr⟩, Finset.sum_add_distrib]
    ring
  · have hu2 : inp.uploC = Uplo.Upper := by
      cases h : inp.uploC with
      | Lower => exact absurd h hu
      | Upper => rfl
    simp only [clv, physPos, Cl, syr2kSingleUpd, if_neg hu, trT]
    simp only [batchSyr2kUpd, hu2, stored]
    rw [if_pos ⟨hc, hr, hcr⟩, Finset.sum_add_distrib]
    have e1 : (∑ t in Finset.range inp.kb,
        applyOp inp.opA (inp.Aph 0) cc t * applyOp inp.opA (inp.Bph 0) r t)
        = ∑ t in Finset.range inp.kb,
            applyOp inp.opA (inp.Bph 0) r t * applyOp inp.opA (inp.Aph 0) cc t :=
      Finset.sum_congr rfl (fun t _ => mul_comm _ _)
    have e2 : (∑ t in Finset.range inp.kb,
        applyOp inp.opA (inp.Bph 0) cc t * applyOp inp.opA (inp.Aph 0) r t)
        = ∑ t in Finset.range inp.kb,
            applyOp inp.opA (inp.Aph 0) r t * applyOp inp.opA (inp.Bph 0) cc t :=
      Finset.sum_congr rfl (fun t _ => mul_comm _ _)
    rw [e1, e2]
    ring

/-- C1 (amended): for every input accepted by the dispatch guard whose tile
extents away from the last block row/column are uniform (the regular
distribution the Devices batch groups assume, added hypothesis), each of
the four realizations — host task-parallel, host nested-parallel, host
batched, device-resident — leaves every locally-owned lower-triangle tile
of `C` holding the same values, equal to the direct reference computation
`α·op(A)·op(B)ᵗ + α·op(B)·op(A)ᵗ + β·C` on the tile's extent (restricted to
the lower triangle on diagonal tiles), exactly over the idealized-arithmetic
embedding. -/
theorem c1_four_realizations (inp : SyInp) (hpre : syr2kPre inp = true)
    (hnb : uniformNb inp) (hwf : devWF inp)
    (i j : ℕ) (hji : j ≤ i) (him : i < inp.mt) (hloc : inp.isLocal i j = true)
    (r cc : ℕ) (hr : r < inp.nb i) (hc : cc < inp.nb j) (hd : i = j → cc ≤ r) :
    Cl inp (hostTaskState inp) i j r cc = refC inp i j r cc
      ∧ Cl inp (hostNestState inp) i j r cc = refC inp i j r cc
      ∧ Cl inp (hostBatchState inp) i j r cc = refC inp i j r cc
      ∧ Cl inp (devicesState inp) i j r cc = refC inp i j r cc := by
  have hAB := pre_opB_eq inp hpre
  have hUL := pre_uplo_iff inp hpre
  refine ⟨?_, ?_, ?_, ?_⟩
  · rw [hostTask_Cl inp i j hji him hloc]
    by_cases hij : i = j
    · subst hij
      rw [if_pos rfl]
      exact hostDiagUpd_val inp i r cc hr hc (hd rfl)
    · rw [if_neg hij]
      exact hostOffUpd_val inp i j r cc hr hc
  · rw [hostNest_Cl inp i j hji him hloc]
    by_cases hij : i = j
    · subst hij
      rw [if_pos rfl]
      exact hostDiagUpd_val inp i r cc hr hc (hd rfl)
    · rw [if_neg hij]
      exact hostOffUpd_val inp i j r cc hr hc
  · rw [hostBatch_Cl inp i j hji him hloc]
    by_cases hij : i = j
    · subst hij
      rw [if_pos rfl]
      exact hostDiagUpd_val inp i r cc hr hc (hd rfl)
    · rw [if_neg hij]
      exact batchPair_val inp hAB hUL (inp.nb i) (inp.nb j) i j r cc hr hc
  · by_cases hmt : inp.mt = 1
    · have hi0 : i = 0 := by omega
      have hj0 : j = 0 := by omega
      subst hi0
      subst hj0
      rw [devices_single_Cl inp hmt hloc]
      exact singleTile_val inp hAB r cc hr hc (hd rfl)
    · have h2 : 2 ≤ inp.mt := by omega
      rw [devices_Cl inp h2 hwf i j hji him hloc]
      by_cases hij : i = j
      · subst hij
        rw [if_pos rfl]
        have hnn : inp.nb (if i < inp.mt - 1 then 0 else inp.mt - 1) = inp.nb i := by
          by_cases hi : i < inp.mt - 1
          · rw [if_pos hi]
            exact (hnb i hi).symm
          · rw [if_neg hi]
            congr 1
            omega
        rw [hnn]
        exact syr2kDev_val inp hAB hUL (inp.nb i) i r cc hr hc (hd rfl)
      · rw [if_neg hij]
        have hnn : inp.nb (if i < inp.mt - 1 then 0 else inp.mt - 1) = inp.nb i := by
          by_cases hi : i < inp.mt - 1
          · rw [if_pos hi]
            exact (hnb i hi).symm
          · rw [if_neg hi]
            congr 1
            omega
        have hn0 : inp.nb 0 = inp.nb j := (hnb j (by omega)).symm
        rw [hnn, hn0]
        exact batchPair_val inp hAB hUL (inp.nb i) (inp.nb j) i j r cc hr hc

/-- C1 counterexample to the unamended claim: a guard-accepted `3 × 3` grid
whose interior block extents differ (`nb = 1, 2, 1`).  The host realization
gives the reference value at entry `(1, 0)` of tile `(1, 0)`, but the
Devices realization does not: its batch groups share one extent and never
write that entry. -/
theorem c1_devices_nonuniform_cex :
    syr2kPre syCex = true ∧ devWF syCex
      ∧ syCex.isLocal 1 0 = true ∧ 1 < syCex.mt ∧ 1 < syCex.nb 1 ∧ 0 < syCex.nb 0
      ∧ Cl syCex (hostTaskState syCex) 1 0 1 0 = refC syCex 1 0 1 0
      ∧ Cl syCex (devicesState syCex) 1 0 1 0 ≠ refC syCex 1 0 1 0 := by
  have href : refC syCex 1 0 1 0 = 2 := by
    simp [refC, dotRR, Al, Bl, applyOp, Cl, syCex, onesT, zerosT]
    norm_num
  have hdev : Cl syCex (devicesState syCex) 1 0 1 0 = 0 := by
    rw [devices_Cl syCex (by decide) (fun a b => Nat.zero_lt_one) 1 0
      (by decide) (by decide) (by decide)]
    rw [if_neg (by decide)]
    simp [clv, gemmUpd2, gemmUpd1, batchGemmUpd, physPos, syCex, zerosT]
  have hht : Cl syCex (hostTaskState syCex) 1 0 1 0 = refC syCex 1 0 1 0 := by
    rw [hostTask_Cl syCex 1 0 (by decide) (by decide) (by decide),
      if_neg (by decide)]
    exact hostOffUpd_val syCex 1 0 1 0 (by decide) (by decide)
  refine ⟨by decide, fun a b => Nat.zero_lt_one, by decide, by decide, by decide,
    by decide, hht, ?_⟩
  rw [hdev, href]
  norm_num

/-- Closed witness for the amended C1 theorem at a regular `2 × 2` grid. -/
theorem c1_four_realizations_witness :
    (syr2kPre syW = true ∧ uniformNb syW ∧ 1 < syW.mt
        ∧ syW.isLocal 1 0 = true ∧ 0 < syW.nb 1 ∧ 0 < syW.nb 0)
      ∧ (Cl syW (hostTaskState syW) 1 0 0 0 = refC syW 1 0 0 0
        ∧ Cl syW (hostNestState syW) 1 0 0 0 = refC syW 1 0 0 0
        ∧ Cl syW (hostBatchState syW) 1 0 0 0 = refC syW 1 0 0 0
        ∧ Cl syW (devicesState syW) 1 0 0 0 = refC syW 1 0 0 0) :=
  ⟨⟨by decide, by decide, by decide, by decide, by decide, by decide⟩,
    c1_four_realizations syW (by decide) (by decide) (fun a b => Nat.zero_lt_one)
      1 0 (by decide) (by decide) (by decide) 0 0 (by decide) (by decide)
      (fun h => le_refl 0)⟩

end Slate
